import Mathlib

/-!
Shallow embedding of the search-algorithm core of the route-planner
repository (code/heartofitall, code/algorithms, code/utilities/route_planner.py),
together with proofs about the claims of its natural-language specification.

Conventions of the embedding:
* Python `dict`s are insertion-ordered association lists (`PyDict`); assignment
  to an existing key updates in place, a new key is appended (CPython semantics).
* Python `float` edge weights and costs are modelled as exact rationals; the
  value `float("inf")` is the constructor `Cost.inf`.  The algorithms only add
  and compare weights, so rational arithmetic is faithful.
* Wall-clock timers (`time.time`, `time.perf_counter`) are opaque to the
  algorithms' logic; the embedded `runtime` field is always `0`.
* The transcendental `haversine_distance` (math.sin/cos/asin/sqrt) is not
  rational-computable; every embedded algorithm that calls the heuristic is
  parametrised by an arbitrary function `hav : ℚ → ℚ → ℚ → ℚ → ℚ` standing for
  it.  All theorems below are independent of the concrete heuristic values.
* Python exceptions are the `.error` side of `Except PyErr`; loops and
  recursions carry explicit fuel, and `none` means "did not terminate within
  the given fuel".
* `heapq` (an external library) is modelled by its contract: the heap is the
  multiset of pushed triples and `heappop` removes the tuple-lexicographically
  least element.  Tuples `(priority, push_id, item)` are compared on
  `(priority, push_id)`; the item is never reached because push ids are unique.
-/

abbrev Node := String

/-- Python dict as an insertion-ordered association list. -/
abbrev PyDict (α β : Type) := List (α × β)

def dictGet [DecidableEq α] : PyDict α β → α → Option β
  | [], _ => none
  | (k, v) :: r, k' => if k = k' then some v else dictGet r k'

def dictSet [DecidableEq α] : PyDict α β → α → β → PyDict α β
  | [], k, v => [(k, v)]
  | (k', v') :: r, k, v => if k' = k then (k, v) :: r else (k', v') :: dictSet r k v

def dictContains [DecidableEq α] (d : PyDict α β) (k : α) : Bool :=
  (dictGet d k).isSome

/-- Python float values used as path costs: a finite rational or `float("inf")`. -/
inductive Cost where
  | fin (q : ℚ)
  | inf
deriving DecidableEq, Repr

/-- Python `<` on costs (`inf < inf` is false, `q < inf` is true). -/
def Cost.lt : Cost → Cost → Bool
  | .fin a, .fin b => a < b
  | .fin _, .inf => true
  | .inf, _ => false

/-- Python runtime errors raised by the embedded code. -/
inductive PyErr where
  | typeErrorMissingArgs (missing : List String)
  | typeErrorTooManyArgs
  | typeErrorUnexpectedKw (k : String)
  | typeErrorMultipleValues (k : String)
  | typeErrorNoneNotSubscriptable
  | typeErrorBadFieldType (field : String)
  | keyError (k : String)
  | indexError
  | valueError (msg : String)
deriving DecidableEq, Repr

/-- The `SearchResult` dataclass of code/heartofitall/search_results.py
(all eight fields are required constructor arguments). -/
structure SearchResult where
  algorithm_name : String
  start : Node
  goal : Node
  path : List Node
  cost : Cost
  nodes_expanded : ℕ
  runtime : ℚ
  is_optimal : Bool
deriving DecidableEq, Repr

/-- A Python value passed as a `SearchResult.__init__` argument. -/
inductive PyVal where
  | vStr (s : String)
  | vPath (p : List Node)
  | vCost (c : Cost)
  | vNat (n : ℕ)
  | vRat (q : ℚ)
  | vBool (b : Bool)
deriving DecidableEq, Repr

/-- The dataclass fields of `SearchResult` in declaration order. -/
def srFieldNames : List String :=
  ["algorithm_name", "start", "goal", "path", "cost", "nodes_expanded",
   "runtime", "is_optimal"]

/-- Bind the keyword arguments of a `SearchResult(...)` call on top of the
already-bound positional arguments, following Python's call protocol. -/
def bindKw (bound : PyDict String PyVal) :
    List (String × PyVal) → Except PyErr (PyDict String PyVal)
  | [] => .ok bound
  | (k, v) :: rest =>
    if k ∈ srFieldNames then
      if dictContains bound k then .error (.typeErrorMultipleValues k)
      else bindKw (dictSet bound k v) rest
    else .error (.typeErrorUnexpectedKw k)

/-- Bind positional and keyword arguments of a `SearchResult(...)` call;
a field left unbound is Python's
`TypeError: __init__() missing n required positional arguments`. -/
def bindCall (pos : List PyVal) (kw : List (String × PyVal)) :
    Except PyErr (PyDict String PyVal) :=
  if srFieldNames.length < pos.length then .error .typeErrorTooManyArgs
  else
    match bindKw ((srFieldNames.take pos.length).zip pos) kw with
    | .error e => .error e
    | .ok bound =>
      match srFieldNames.filter (fun f => !(dictContains bound f)) with
      | [] => .ok bound
      | missing => .error (.typeErrorMissingArgs missing)

def pyField (bound : PyDict String PyVal) (f : String) : Except PyErr PyVal :=
  match dictGet bound f with
  | some v => .ok v
  | none => .error (.keyError f)

def PyVal.asStr : PyVal → Except PyErr String
  | .vStr s => .ok s
  | _ => .error (.typeErrorBadFieldType "str")

def PyVal.asPath : PyVal → Except PyErr (List Node)
  | .vPath p => .ok p
  | _ => .error (.typeErrorBadFieldType "list")

def PyVal.asCost : PyVal → Except PyErr Cost
  | .vCost c => .ok c
  | _ => .error (.typeErrorBadFieldType "float")

def PyVal.asNat : PyVal → Except PyErr ℕ
  | .vNat n => .ok n
  | _ => .error (.typeErrorBadFieldType "int")

def PyVal.asRat : PyVal → Except PyErr ℚ
  | .vRat q => .ok q
  | _ => .error (.typeErrorBadFieldType "float")

def PyVal.asBool : PyVal → Except PyErr Bool
  | .vBool b => .ok b
  | _ => .error (.typeErrorBadFieldType "bool")

/-- A call `SearchResult(*pos, **kw)`: bind the arguments, then build the
record.  (Python dataclasses do not check field types at runtime; the type
projections below can only fail on argument shapes that no call site of this
repository produces, since every call whose arity matches is well-typed.) -/
def mkSearchResult (pos : List PyVal) (kw : List (String × PyVal)) :
    Except PyErr SearchResult :=
  match bindCall pos kw with
  | .error e => .error e
  | .ok b =>
    match pyField b "algorithm_name", pyField b "start", pyField b "goal",
          pyField b "path", pyField b "cost", pyField b "nodes_expanded",
          pyField b "runtime", pyField b "is_optimal" with
    | .ok a1, .ok a2, .ok a3, .ok a4, .ok a5, .ok a6, .ok a7, .ok a8 =>
      match a1.asStr, a2.asStr, a3.asStr, a4.asPath, a5.asCost, a6.asNat,
            a7.asRat, a8.asBool with
      | .ok an, .ok s, .ok t, .ok p, .ok c, .ok n, .ok rt, .ok b' =>
        .ok ⟨an, s, t, p, c, n, rt, b'⟩
      | .error e, _, _, _, _, _, _, _ => .error e
      | _, .error e, _, _, _, _, _, _ => .error e
      | _, _, .error e, _, _, _, _, _ => .error e
      | _, _, _, .error e, _, _, _, _ => .error e
      | _, _, _, _, .error e, _, _, _ => .error e
      | _, _, _, _, _, .error e, _, _ => .error e
      | _, _, _, _, _, _, .error e, _ => .error e
      | _, _, _, _, _, _, _, .error e => .error e
    | .error e, _, _, _, _, _, _, _ => .error e
    | _, .error e, _, _, _, _, _, _ => .error e
    | _, _, .error e, _, _, _, _, _ => .error e
    | _, _, _, .error e, _, _, _, _ => .error e
    | _, _, _, _, .error e, _, _, _ => .error e
    | _, _, _, _, _, .error e, _, _ => .error e
    | _, _, _, _, _, _, .error e, _ => .error e
    | _, _, _, _, _, _, _, .error e => .error e

/-- The keyword-argument list used by every arity-correct `SearchResult(...)`
call site (bfs.py, astar.py, greedy.py, idastar.py, ids.py all pass these
eight keywords in this order). -/
def stdKw (an s t : String) (p : List Node) (c : Cost) (n : ℕ) (rt : ℚ)
    (b : Bool) : List (String × PyVal) :=
  [("algorithm_name", .vStr an), ("start", .vStr s), ("goal", .vStr t),
   ("path", .vPath p), ("cost", .vCost c), ("nodes_expanded", .vNat n),
   ("runtime", .vRat rt), ("is_optimal", .vBool b)]

/-- The keyword-argument list of both `SearchResult(...)` call sites in
ucs.py: `path, cost, nodes_expanded, runtime, is_optimal, algorithm_name` —
the required `start` and `goal` fields are absent. -/
def ucsKw (p : List Node) (c : Cost) (n : ℕ) (rt : ℚ) (b : Bool)
    (an : String) : List (String × PyVal) :=
  [("path", .vPath p), ("cost", .vCost c), ("nodes_expanded", .vNat n),
   ("runtime", .vRat rt), ("is_optimal", .vBool b), ("algorithm_name", .vStr an)]

/-- The positional-argument list of both `SearchResult(...)` call sites in
dfs.py: six positional arguments for the eight-field dataclass. -/
def dfsArgs (p : List Node) (c : Cost) (n : ℕ) (rt : ℚ) (b : Bool)
    (an : String) : List PyVal :=
  [.vPath p, .vCost c, .vNat n, .vRat rt, .vBool b, .vStr an]

/-- One heap entry of the frontier: `(priority, insertion id, item)`. -/
abbrev HeapEntry := ℚ × ℕ × Node

/-- Tuple-lexicographic `≤` on heap entries, restricted to the first two
components (push ids are unique, so CPython's tuple comparison never reaches
the item). -/
def entryLe (a b : HeapEntry) : Bool :=
  a.1 < b.1 || (a.1 == b.1 && a.2.1 ≤ b.2.1)

/-- `heapq.heappush`: the heap holds the multiset of pushed entries. -/
def heappush (h : List HeapEntry) (e : HeapEntry) : List HeapEntry :=
  h ++ [e]

/-- `heapq.heappop` modelled by its contract: remove and return the least
entry in tuple order; `none` on an empty heap (Python raises `IndexError`). -/
def heapPopMin : List HeapEntry → Option (HeapEntry × List HeapEntry)
  | [] => none
  | e :: es =>
    match heapPopMin es with
    | none => some (e, [])
    | some (m, rest) =>
      if entryLe e m then some (e, es) else some (m, e :: rest)

/-- The `PriorityQueue` of code/heartofitall/priority_queue.py. -/
structure PriorityQueue where
  _h : List HeapEntry
  _push_id : ℕ
deriving DecidableEq, Repr

def PriorityQueue.pqNew : PriorityQueue := ⟨[], 0⟩

def PriorityQueue.push (q : PriorityQueue) (item : Node) (priority : ℚ) :
    PriorityQueue :=
  ⟨heappush q._h (priority, q._push_id, item), q._push_id + 1⟩

def PriorityQueue.pop (q : PriorityQueue) : Except PyErr (Node × PriorityQueue) :=
  match heapPopMin q._h with
  | none => .error .indexError
  | some ((_p, _i, item), rest) => .ok (item, ⟨rest, q._push_id⟩)

def PriorityQueue.is_empty (q : PriorityQueue) : Bool :=
  q._h.isEmpty

/-- The frozen `City` dataclass of code/heartofitall/graph.py. -/
structure City where
  name : Node
  latitude : ℚ
  longitude : ℚ
deriving DecidableEq, Repr

/-- The `Graph` of code/heartofitall/graph.py: `cities` is a dict
name → City, `adjacency` a `defaultdict(dict)` name → (name → distance). -/
structure Graph where
  cities : PyDict Node City
  adjacency : PyDict Node (PyDict Node ℚ)
deriving DecidableEq, Repr

def Graph.emptyGraph : Graph := ⟨[], []⟩

def Graph.add_city (g : Graph) (name : Node) (lat lon : ℚ) : Graph :=
  { g with cities := dictSet g.cities name ⟨name, lat, lon⟩ }

def Graph.add_edge (g : Graph) (a b : Node) (distance : ℚ)
    (bidirectional : Bool) : Graph :=
  let adj1 := dictSet g.adjacency a
    (dictSet ((dictGet g.adjacency a).getD []) b distance)
  let adj2 :=
    if bidirectional then
      dictSet adj1 b (dictSet ((dictGet adj1 b).getD []) a distance)
    else adj1
  { g with adjacency := adj2 }

/-- `self.adjacency.get(city, {})` — never raises. -/
def Graph.get_neighbors (g : Graph) (city : Node) : PyDict Node ℚ :=
  (dictGet g.adjacency city).getD []

/-- `self.adjacency[a][b]`.  `adjacency` is a `defaultdict(dict)`, so a
missing `a` yields an empty inner dict and the failure is `KeyError: b`. -/
def Graph.get_distance (g : Graph) (a b : Node) : Except PyErr ℚ :=
  match dictGet ((dictGet g.adjacency a).getD []) b with
  | some d => .ok d
  | none => .error (.keyError b)

/-- `self.cities[city]` then `(latitude, longitude)`. -/
def Graph.get_coordinates (g : Graph) (city : Node) : Except PyErr (ℚ × ℚ) :=
  match dictGet g.cities city with
  | some c => .ok (c.latitude, c.longitude)
  | none => .error (.keyError city)

/-- Type of the opaque stand-in for `haversine_distance` (transcendental,
hence a parameter of the embedding; no theorem below depends on its values). -/
abbrev Hav := ℚ → ℚ → ℚ → ℚ → ℚ

/-- The `_h` helper of astar.py / greedy.py / idastar.py: look up both
coordinate pairs, then apply the haversine function. -/
def nodeHeuristic (hav : Hav) (g : Graph) (a b : Node) : Except PyErr ℚ :=
  match g.get_coordinates a with
  | .error e => .error e
  | .ok p1 =>
    match g.get_coordinates b with
    | .error e => .error e
    | .ok p2 => .ok (hav p1.1 p1.2 p2.1 p2.2)

/-- `SearchAlgorithm._reconstruct_path` (base_algorithm.py): start from
`current`, repeatedly append `came_from[current]`, then reverse.  Fuel bounds
the loop; `none` means the Python loop would not have terminated. -/
def reconstructGo (cf : PyDict Node Node) :
    ℕ → Node → List Node → Option (List Node)
  | 0, _, _ => none
  | fuel + 1, current, path =>
    match dictGet cf current with
    | none => some path.reverse
    | some par => reconstructGo cf fuel par (path ++ [par])

def reconstruct_path (cf : PyDict Node Node) (fuel : ℕ) (current : Node) :
    Option (List Node) :=
  reconstructGo cf fuel current [current]

/-- `BFS._reconstruct_path` (bfs.py): collect nodes from `goal` while they
have parents, append `self.start`, reverse. -/
def bfsReconstructGo (cf : PyDict Node Node) :
    ℕ → Node → List Node → Option (List Node)
  | 0, _, _ => none
  | fuel + 1, current, path =>
    match dictGet cf current with
    | none => some path
    | some par => bfsReconstructGo cf fuel par (path ++ [current])

def bfs_reconstruct (start : Node) (cf : PyDict Node Node) (fuel : ℕ)
    (goal : Node) : Option (List Node) :=
  match bfsReconstructGo cf fuel goal [] with
  | none => none
  | some p => some ((p ++ [start]).reverse)

/-- `cost = 0.0; for a, b in zip(path, path[1:]): cost += get_distance(a, b)`
(bfs.py, dfs.py, greedy.py, ids.py). -/
def pathCostQ (g : Graph) (l : List Node) : Except PyErr ℚ :=
  (l.zip (l.drop 1)).foldl
    (fun acc ab =>
      match acc with
      | .error e => .error e
      | .ok c =>
        match g.get_distance ab.1 ab.2 with
        | .error e => .error e
        | .ok d => .ok (c + d))
    (.ok 0)

/-! ## BFS (code/algorithms/bfs.py) -/

structure BFSState where
  frontier : List Node
  came_from : PyDict Node Node
  visited : List Node
  nodes_expanded : ℕ
deriving Repr

/-- The neighbor loop of `BFS.search`: unvisited neighbors are marked
visited, given a parent, and enqueued. -/
def bfsExpand (g : Graph) (u : Node) (st : BFSState) : BFSState :=
  (g.get_neighbors u).foldl
    (fun st pair =>
      if pair.1 ∈ st.visited then st
      else { st with
              visited := st.visited ++ [pair.1],
              came_from := dictSet st.came_from pair.1 u,
              frontier := st.frontier ++ [pair.1] })
    st

/-- The `while frontier:` loop of `BFS.search` (goal test on dequeue; the
expansion counter is only incremented for nodes whose neighbors are examined). -/
def bfsLoop (g : Graph) (goal : Node) : ℕ → BFSState → Option BFSState
  | 0, _ => none
  | fuel + 1, st =>
    match st.frontier with
    | [] => some st
    | u :: rest =>
      if u = goal then some { st with frontier := rest }
      else
        bfsLoop g goal fuel
          (bfsExpand g u
            { st with frontier := rest, nodes_expanded := st.nodes_expanded + 1 })

def bfs_search (g : Graph) (s t : Node) (fuel : ℕ) :
    Option (Except PyErr SearchResult) :=
  match bfsLoop g t fuel ⟨[s], [], [s], 0⟩ with
  | none => none
  | some st =>
    if !(dictContains st.came_from t) && !(t == s) then
      some (mkSearchResult [] (stdKw "BFS" s t [] .inf st.nodes_expanded 0 false))
    else
      match (if s == t then some [s] else bfs_reconstruct s st.came_from fuel t) with
      | none => none
      | some path =>
        match pathCostQ g path with
        | .error e => some (.error e)
        | .ok cost =>
          some (mkSearchResult []
            (stdKw "BFS" s t path (.fin cost) st.nodes_expanded 0 false))

/-! ## DFS (code/algorithms/dfs.py) -/

/-- `DFS.helper`: recursive depth-first search.  Returns
`(found, visited, came_from, nodes_expanded)`; `came_from[neighbor]` is set
before each recursive call and kept even when that call fails. -/
def dfsHelper (g : Graph) (goal : Node) :
    ℕ → Node → List Node → PyDict Node Node → ℕ →
    Option (Bool × List Node × PyDict Node Node × ℕ)
  | 0, _, _, _, _ => none
  | fuel + 1, node, visited, cf, exp =>
    if node = goal then some (true, visited, cf, exp)
    else
      (g.get_neighbors node).foldl
        (fun acc pair =>
          match acc with
          | none => none
          | some (true, st) => some (true, st)
          | some (false, v, c, e) =>
            if pair.1 ∈ v then some (false, v, c, e)
            else dfsHelper g goal fuel pair.1 v (dictSet c pair.1 node) e)
        (some (false, visited ++ [node], cf, exp + 1))

def dfs_search (g : Graph) (s t : Node) (fuel : ℕ) :
    Option (Except PyErr SearchResult) :=
  match dfsHelper g t fuel s [] [] 0 with
  | none => none
  | some (_found, _visited, cf, exp) =>
    if !(dictContains cf t) && !(t == s) then
      some (mkSearchResult (dfsArgs [] .inf exp 0 false "DFS") [])
    else
      match (if s == t then some [s] else reconstruct_path cf fuel t) with
      | none => none
      | some path =>
        match pathCostQ g path with
        | .error e => some (.error e)
        | .ok cost =>
          some (mkSearchResult (dfsArgs path (.fin cost) exp 0 true "DFS") [])

/-! ## UCS (code/algorithms/ucs.py) -/

structure UCSState where
  frontier : PriorityQueue
  came_from : PyDict Node Node
  cost_so_far : PyDict Node ℚ
  nodes_expanded : ℕ
deriving Repr

/-- The relaxation loop of `UCS.search`: strictly better paths update
`cost_so_far` and `came_from` and push the neighbor at the new cost. -/
def ucsRelax (g : Graph) (current : Node) (current_cost : ℚ) (st : UCSState) :
    UCSState :=
  (g.get_neighbors current).foldl
    (fun st pair =>
      let new_cost := current_cost + pair.2
      if Cost.lt (.fin new_cost)
          ((dictGet st.cost_so_far pair.1).elim Cost.inf Cost.fin) then
        { st with
            cost_so_far := dictSet st.cost_so_far pair.1 new_cost,
            came_from := dictSet st.came_from pair.1 current,
            frontier := st.frontier.push pair.1 new_cost }
      else st)
    st

def ucsLoop (g : Graph) (goal : Node) : ℕ → UCSState → Option (Except PyErr SearchResult)
  | 0, _ => none
  | fuel + 1, st =>
    if st.frontier.is_empty then
      some (mkSearchResult [] (ucsKw [] .inf st.nodes_expanded 0 false "UCS"))
    else
      match st.frontier.pop with
      | .error e => some (.error e)
      | .ok (current, fr') =>
        match dictGet st.cost_so_far current with
        | none => some (.error (.keyError current))
        | some current_cost =>
          if current = goal then
            match reconstruct_path st.came_from (fuel + 1) current with
            | none => none
            | some path =>
              some (mkSearchResult []
                (ucsKw path (.fin current_cost) st.nodes_expanded 0 true "UCS"))
          else
            ucsLoop g goal fuel
              (ucsRelax g current current_cost
                { st with frontier := fr',
                          nodes_expanded := st.nodes_expanded + 1 })

def ucs_search (g : Graph) (s t : Node) (fuel : ℕ) :
    Option (Except PyErr SearchResult) :=
  ucsLoop g t fuel ⟨PriorityQueue.pqNew.push s 0, [], [(s, 0)], 0⟩

/-! ## Greedy best-first (code/algorithms/greedy.py) -/

structure GreedyState where
  frontier : PriorityQueue
  came_from : PyDict Node Node
  visited : List Node
  nodes_expanded : ℕ
deriving Repr

/-- The neighbor loop of `GreedyBestFirst.search`: unvisited neighbors are
marked visited, given a parent, and pushed at their heuristic value. -/
def greedyExpand (hav : Hav) (g : Graph) (goal u : Node) (st : GreedyState) :
    Except PyErr GreedyState :=
  (g.get_neighbors u).foldl
    (fun acc pair =>
      match acc with
      | .error e => .error e
      | .ok st =>
        if pair.1 ∈ st.visited then .ok st
        else
          match nodeHeuristic hav g pair.1 goal with
          | .error e => .error e
          | .ok hv =>
            .ok { st with
                    visited := st.visited ++ [pair.1],
                    came_from := dictSet st.came_from pair.1 u,
                    frontier := st.frontier.push pair.1 hv })
    (.ok st)

def greedyLoop (hav : Hav) (g : Graph) (s t : Node) :
    ℕ → GreedyState → Option (Except PyErr SearchResult)
  | 0, _ => none
  | fuel + 1, st =>
    if st.frontier.is_empty then
      some (mkSearchResult [] (stdKw "Greedy" s t [] .inf st.nodes_expanded 0 false))
    else
      match st.frontier.pop with
      | .error e => some (.error e)
      | .ok (current, fr') =>
        if current = t then
          match reconstruct_path st.came_from (fuel + 1) current with
          | none => none
          | some path =>
            match pathCostQ g path with
            | .error e => some (.error e)
            | .ok cost =>
              some (mkSearchResult []
                (stdKw "Greedy" s t path (.fin cost) st.nodes_expanded 0 false))
        else
          match greedyExpand hav g t current
              { st with frontier := fr',
                        nodes_expanded := st.nodes_expanded + 1 } with
          | .error e => some (.error e)
          | .ok st' => greedyLoop hav g s t fuel st'

def greedy_search (hav : Hav) (g : Graph) (s t : Node) (fuel : ℕ) :
    Option (Except PyErr SearchResult) :=
  match nodeHeuristic hav g s t with
  | .error e => some (.error e)
  | .ok h0 => greedyLoop hav g s t fuel ⟨PriorityQueue.pqNew.push s h0, [], [s], 0⟩

/-! ## A* (code/algorithms/astar.py) -/

structure AStarState where
  frontier : PriorityQueue
  came_from : PyDict Node Node
  gmap : PyDict Node ℚ
  nodes_expanded : ℕ
deriving Repr

/-- The relaxation loop of `AStar.search`: `g[current]` is re-read on every
iteration (a `KeyError` there aborts the search); strictly better paths update
`g` and `came_from` and push the neighbor at `tentative + h(neighbor, goal)`. -/
def astarRelax (hav : Hav) (gr : Graph) (goal current : Node) (st : AStarState) :
    Except PyErr AStarState :=
  (gr.get_neighbors current).foldl
    (fun acc pair =>
      match acc with
      | .error e => .error e
      | .ok st =>
        match dictGet st.gmap current with
        | none => .error (.keyError current)
        | some gcur =>
          let tentative := gcur + pair.2
          if Cost.lt (.fin tentative)
              ((dictGet st.gmap pair.1).elim Cost.inf Cost.fin) then
            match nodeHeuristic hav gr pair.1 goal with
            | .error e => .error e
            | .ok hv =>
              .ok { st with
                      gmap := dictSet st.gmap pair.1 tentative,
                      came_from := dictSet st.came_from pair.1 current,
                      frontier := st.frontier.push pair.1 (tentative + hv) }
          else .ok st)
    (.ok st)

def astarLoop (hav : Hav) (gr : Graph) (s t : Node) :
    ℕ → AStarState → Option (Except PyErr SearchResult)
  | 0, _ => none
  | fuel + 1, st =>
    if st.frontier.is_empty then
      some (mkSearchResult [] (stdKw "A*" s t [] .inf st.nodes_expanded 0 false))
    else
      match st.frontier.pop with
      | .error e => some (.error e)
      | .ok (current, fr') =>
        if current = t then
          match reconstruct_path st.came_from (fuel + 1) current with
          | none => none
          | some path =>
            match dictGet st.gmap current with
            | none => some (.error (.keyError current))
            | some gc =>
              some (mkSearchResult []
                (stdKw "A*" s t path (.fin gc) st.nodes_expanded 0 true))
        else
          match astarRelax hav gr t current
              { st with frontier := fr',
                        nodes_expanded := st.nodes_expanded + 1 } with
          | .error e => some (.error e)
          | .ok st' => astarLoop hav gr s t fuel st'

def astar_search (hav : Hav) (g : Graph) (s t : Node) (fuel : ℕ) :
    Option (Except PyErr SearchResult) :=
  astarLoop hav g s t fuel ⟨PriorityQueue.pqNew.push s 0, [], [(s, 0)], 0⟩

/-! ## IDA* (code/algorithms/idastar.py) -/

/-- Outcome of `IDAStar._bounded_search`: the found path together with the
(unwound-free) `g_costs` stack, or the minimum f-value that exceeded the
threshold (`Cost.inf` when the bounded subtree is exhausted). -/
inductive BSRes where
  | found (p : List Node) (gcosts : List ℚ)
  | exceeded (m : Cost)
deriving Repr

/-- `IDAStar._bounded_search`: depth-first search bounded by the f-cost
threshold; nodes already on the current path are skipped. -/
def idastarBounded (hav : Hav) (g : Graph) (goal : Node) :
    ℕ → List Node → List ℚ → ℚ → ℕ → Option (Except PyErr (BSRes × ℕ))
  | 0, _, _, _, _ => none
  | fuel + 1, path, gcosts, threshold, exp =>
    match path.getLast?, gcosts.getLast? with
    | some node, some gv =>
      (match nodeHeuristic hav g node goal with
       | .error e => some (.error e)
       | .ok hv =>
         let f := gv + hv
         if threshold < f then some (.ok (.exceeded (.fin f), exp))
         else if node = goal then some (.ok (.found path gcosts, exp))
         else
           (g.get_neighbors node).foldl
             (fun acc pair =>
               match acc with
               | none => none
               | some (.error e) => some (.error e)
               | some (.ok (.found p gc, e)) => some (.ok (.found p gc, e))
               | some (.ok (.exceeded m, e)) =>
                 if pair.1 ∈ path then some (.ok (.exceeded m, e))
                 else
                   match idastarBounded hav g goal fuel (path ++ [pair.1])
                       (gcosts ++ [gv + pair.2]) threshold e with
                   | none => none
                   | some (.error e') => some (.error e')
                   | some (.ok (.found p gc, e')) => some (.ok (.found p gc, e'))
                   | some (.ok (.exceeded m', e')) =>
                     some (.ok (.exceeded (if Cost.lt m' m then m' else m), e')))
             (some (.ok (.exceeded .inf, exp + 1))))
    | _, _ => some (.error .indexError)

/-- The threshold-escalation loop of `IDAStar.search`. -/
def idastarLoop (hav : Hav) (g : Graph) (s t : Node) :
    ℕ → ℚ → ℕ → Option (Except PyErr SearchResult)
  | 0, _, _ => none
  | fuel + 1, threshold, exp =>
    match idastarBounded hav g t (fuel + 1) [s] [0] threshold exp with
    | none => none
    | some (.error e) => some (.error e)
    | some (.ok (.found p gcosts, exp')) =>
      match gcosts.getLast? with
      | none => some (.error .indexError)
      | some c => some (mkSearchResult [] (stdKw "IDA*" s t p (.fin c) exp' 0 true))
    | some (.ok (.exceeded .inf, exp')) =>
      some (mkSearchResult [] (stdKw "IDA*" s t [] .inf exp' 0 false))
    | some (.ok (.exceeded (.fin q), exp')) => idastarLoop hav g s t fuel q exp'

def idastar_search (hav : Hav) (g : Graph) (s t : Node) (fuel : ℕ) :
    Option (Except PyErr SearchResult) :=
  match nodeHeuristic hav g s t with
  | .error e => some (.error e)
  | .ok h0 => idastarLoop hav g s t fuel h0 0

/-! ## IDS (code/algorithms/ids.py) -/

/-- `IDS.depth_limited_search`: goal test first, then the depth bound, then
recursion over neighbors not already on the current path.  Returns the found
path (`[node] + result`) and the updated expansion counter. -/
def idsDls (g : Graph) (goal : Node) :
    ℕ → Node → List Node → ℕ → Option (List Node) × ℕ
  | depth, node, path, exp =>
    if node = goal then (some [node], exp)
    else
      match depth with
      | 0 => (none, exp)
      | d + 1 =>
        (g.get_neighbors node).foldl
          (fun acc pair =>
            match acc with
            | (some r, e) => (some r, e)
            | (none, e) =>
              if pair.1 ∈ path then (none, e)
              else
                match idsDls g goal d pair.1 (path ++ [pair.1]) e with
                | (some r, e') => (some (node :: r), e')
                | (none, e') => (none, e'))
          (none, exp + 1)

/-- The `while True:` loop of `IDS.search`: increase the depth until a result
is found or the depth bound 50 is exceeded. -/
def idsOuter (g : Graph) (s t : Node) : ℕ → ℕ → ℕ → Option (Option (List Node) × ℕ)
  | 0, _, _ => none
  | fuel + 1, depth, exp =>
    match idsDls g t depth s [s] exp with
    | (result, exp') =>
      if result.isSome || decide (50 < depth) then some (result, exp')
      else idsOuter g s t fuel (depth + 1) exp'

/-- `IDS.search`.  When the loop ends with `result = None` (goal unreachable),
the cost loop evaluates `result[1:]`, which raises
`TypeError: 'NoneType' object is not subscriptable`. -/
def ids_search (g : Graph) (s t : Node) (fuel : ℕ) :
    Option (Except PyErr SearchResult) :=
  match idsOuter g s t fuel 0 0 with
  | none => none
  | some (result, exp) =>
    match result with
    | none => some (.error .typeErrorNoneNotSubscriptable)
    | some l =>
      match pathCostQ g l with
      | .error e => some (.error e)
      | .ok cost =>
        if !l.isEmpty then
          some (mkSearchResult [] (stdKw "IDS" s t l (.fin cost) exp 0 false))
        else
          some (mkSearchResult [] (stdKw "IDS" s t [] .inf exp 0 false))

/-! ## Route planner (code/utilities/route_planner.py) -/

/-- `ALGO_REGISTRY` keys, in declaration order (IDA* is commented out). -/
def ALGO_REGISTRY_KEYS : List String :=
  ["DFS", "BFS", "UCS", "IDS", "Greedy", "A*"]

/-- `ALGO_NAME_MAPPING`: display names to registry keys. -/
def ALGO_NAME_MAPPING : PyDict String String :=
  [("DFS (Depth-First Search)", "DFS"),
   ("BFS (Breadth-First Search)", "BFS"),
   ("UCS (Uniform Cost Search)", "UCS"),
   ("Greedy Best-First Search", "Greedy"),
   ("IDS (Iterative Deepening Search)", "IDS"),
   ("A* Search", "A*"),
   ("A*", "A*"),
   ("Greedy", "Greedy"),
   ("DFS", "DFS"),
   ("BFS", "BFS"),
   ("UCS", "UCS"),
   ("IDS", "IDS")]

/-- `normalize_algorithm_name`: mapping lookup, then the
`name.split("(")[0].strip()` fallback, else the name unchanged. -/
def normalize_algorithm_name (name : String) : String :=
  match dictGet ALGO_NAME_MAPPING name with
  | some v => v
  | none =>
    if name.contains '(' then
      let short := ((name.splitOn "(").headD "").trim
      if short ∈ ALGO_REGISTRY_KEYS then short else name
    else name

/-- `algo_cls(self.graph, start, goal).search()`: run the registry entry for
a normalized algorithm name. -/
def dispatch_search (hav : Hav) (g : Graph) (n : String) (start goal : Node)
    (fuel : ℕ) : Option (Except PyErr SearchResult) :=
  if n == "DFS" then dfs_search g start goal fuel
  else if n == "BFS" then bfs_search g start goal fuel
  else if n == "UCS" then ucs_search g start goal fuel
  else if n == "IDS" then ids_search g start goal fuel
  else if n == "Greedy" then greedy_search hav g start goal fuel
  else astar_search hav g start goal fuel

/-- `RoutePlanner.run_single_algorithm`: dispatch on the normalized name,
run the strategy, then overwrite `result.is_optimal` with the conservative
annotation (`True` iff the normalized name is UCS or A*). -/
def run_single_algorithm (hav : Hav) (g : Graph) (algorithm_name : String)
    (start goal : Node) (fuel : ℕ) : Option (Except PyErr SearchResult) :=
  let n := normalize_algorithm_name algorithm_name
  if n ∈ ALGO_REGISTRY_KEYS then
    match dispatch_search hav g n start goal fuel with
    | none => none
    | some (.error e) => some (.error e)
    | some (.ok r) =>
      some (.ok { r with is_optimal := n == "UCS" || n == "A*" })
  else
    some (.error (.valueError "Unknown algorithm"))

/-- `ComparisonResult` (route_planner.py): results plus the derived summary
fields (defaults: `[]`, `""`, `""`). -/
structure ComparisonResult where
  start : Node
  goal : Node
  results : List SearchResult
  optimal_algorithms : List String
  fastest_algorithm : String
  least_expanded_algorithm : String
deriving DecidableEq, Repr

/-- Python `min(..., key=...)` on a nonempty list: keep the first element
whose key is strictly smaller than the current best's. -/
def pyMinBy (lt : β → β → Bool) (key : SearchResult → β) (x : SearchResult)
    (xs : List SearchResult) : SearchResult :=
  xs.foldl (fun best y => if lt (key y) (key best) then y else best) x

/-- `ComparisonResult._compute_metrics`: filter to results with a non-empty
path; on an empty filter keep the defaults, otherwise compute the minimum
cost, the cost-tied algorithm names, and the fastest / least-expanding
algorithm names. -/
def computeMetrics (results : List SearchResult) :
    List String × String × String :=
  match results.filter (fun r => !r.path.isEmpty) with
  | [] => ([], "", "")
  | f0 :: frest =>
    let min_cost := frest.foldl
      (fun b r => if Cost.lt r.cost b then r.cost else b) f0.cost
    let optimal := ((f0 :: frest).filter (fun r => r.cost == min_cost)).map
      (fun r => r.algorithm_name)
    let fastest := pyMinBy (fun a b => decide (a < b)) (fun r => r.runtime) f0 frest
    let least := pyMinBy (fun a b => decide (a < b)) (fun r => r.nodes_expanded) f0 frest
    (optimal, fastest.algorithm_name, least.algorithm_name)

/-- `ComparisonResult.__post_init__`: metrics are computed only when the
results list is non-empty. -/
def mkComparisonResult (s t : Node) (results : List SearchResult) :
    ComparisonResult :=
  if results.isEmpty then ⟨s, t, results, [], "", ""⟩
  else
    let m := computeMetrics results
    ⟨s, t, results, m.1, m.2.1, m.2.2⟩

/-! ## Concrete inputs used by the evaluation theorems -/

/-- A heuristic instance (all theorems hold for every `hav`; the concrete
evaluations use this one). -/
def hav0 : Hav := fun _ _ _ _ => 0

/-- Two cities joined by an edge of weight 1:
`A(0,0) — B(0,0), distance 1` (built through the Graph API). -/
def gAB : Graph :=
  ((Graph.emptyGraph.add_city "A" 0 0).add_city "B" 0 0).add_edge "A" "B" 1 true

/-- Two isolated cities `A(0,0)` and `D(0,0)` with no edges: `D` is
unreachable from `A`. -/
def gAD : Graph :=
  (Graph.emptyGraph.add_city "A" 0 0).add_city "D" 0 0

/-! ## Path predicates and invariants used by the theorems -/

/-- Every consecutive pair of nodes has a stored edge in the adjacency
mapping (the property §8 of the spec demands of returned paths). -/
def isChain (g : Graph) : List Node → Bool
  | [] => true
  | [_] => true
  | a :: b :: rest => dictContains (g.get_neighbors a) b && isChain g (b :: rest)

/-- `l` is a start-to-goal path of `g`: begins with `s`, ends with `t`, and
consecutive nodes are adjacent. -/
def pathOkB (g : Graph) (s t : Node) (l : List Node) : Bool :=
  l.head? == some s && l.getLast? == some t && isChain g l

/-- Adjacent entries of `l` follow parent links: `came_from[x] = y` for each
consecutive pair `(x, y)`. -/
def descending (cf : PyDict Node Node) : List Node → Bool
  | [] => true
  | [_] => true
  | x :: y :: rest => (dictGet cf x == some y) && descending cf (y :: rest)

/-- The items currently held in a frontier. -/
def pqItems (q : PriorityQueue) : List Node :=
  q._h.map (fun e => e.2.2)

/-- Every parent entry `came_from[v] = u` corresponds to a stored edge
`v ∈ get_neighbors(u)`. -/
def EdgeInv (g : Graph) (cf : PyDict Node Node) : Prop :=
  ∀ v u, dictGet cf v = some u → dictContains (g.get_neighbors u) v = true

/-- Every parent recorded in `came_from` is the start node or itself has a
parent entry. -/
def RootedInv (s : Node) (cf : PyDict Node Node) : Prop :=
  ∀ v u, dictGet cf v = some u → u = s ∨ dictContains cf u = true

/-- Every element of `items` is the start node or has a parent entry. -/
def ItemsInv (s : Node) (cf : PyDict Node Node) (items : List Node) : Prop :=
  ∀ x ∈ items, x = s ∨ dictContains cf x = true

/-- Search results that are the `IndexError` of a pop on an empty frontier. -/
def isPopEmptyErr : Except PyErr SearchResult → Bool
  | .error .indexError => true
  | _ => false

/-- The frontier state reached from a fresh `PriorityQueue()` by a sequence
of `push(item, priority)` calls. -/
def pushSeq (ps : List (Node × ℚ)) : PriorityQueue :=
  ps.foldl (fun q p => q.push p.1 p.2) PriorityQueue.pqNew

/-! ## Helper lemmas: dictionaries, folds, the heap model -/

theorem dictGet_dictSet [DecidableEq α] (d : PyDict α β) (k : α) (v : β)
    (k' : α) :
    dictGet (dictSet d k v) k' = if k = k' then some v else dictGet d k' := by
  induction d with
  | nil => simp [dictSet, dictGet]
  | cons p r ih =>
    obtain ⟨k0, v0⟩ := p
    by_cases h0 : k0 = k
    · subst h0
      by_cases h1 : k0 = k' <;> simp [dictSet, dictGet, h1]
    · by_cases h1 : k0 = k'
      · subst h1
        have hk : ¬ k = k0 := fun h => h0 h.symm
        simp [dictSet, dictGet, h0, hk]
      · simp [dictSet, dictGet, h0, h1, ih]

theorem dictContains_dictSet_self [DecidableEq α] (d : PyDict α β) (k : α)
    (v : β) : dictContains (dictSet d k v) k = true := by
  simp [dictContains, dictGet_dictSet]

theorem dictContains_mono [DecidableEq α] (d : PyDict α β) (k : α) (v : β)
    (u : α) (h : dictContains d u = true) :
    dictContains (dictSet d k v) u = true := by
  simp only [dictContains, dictGet_dictSet]
  by_cases hk : k = u
  · simp [hk]
  · simpa [hk] using h

theorem mem_dictContains [DecidableEq α] (d : PyDict α β) (p : α × β)
    (h : p ∈ d) : dictContains d p.1 = true := by
  induction d with
  | nil => cases h
  | cons q r ih =>
    rcases List.mem_cons.mp h with h | h
    · subst h
      simp [dictContains, dictGet]
    · by_cases hq : q.1 = p.1
      · simp [dictContains, dictGet, hq]
      · simpa [dictContains, dictGet, hq] using ih h

theorem dictContains_isSome [DecidableEq α] (d : PyDict α β) (k : α)
    (h : dictContains d k = true) : ∃ v, dictGet d k = some v := by
  simpa [dictContains, Option.isSome_iff_exists] using h

/-- A fold preserves a predicate when every step taken on a list element
does. -/
theorem foldl_pres {P : β → Prop} (f : β → α → β) (l : List α)
    (hstep : ∀ b a, a ∈ l → P b → P (f b a)) (b : β) (hb : P b) :
    P (l.foldl f b) := by
  induction l generalizing b with
  | nil => simpa using hb
  | cons x xs ih =>
    simp only [List.foldl_cons]
    exact ih (fun b a ha hb => hstep b a (List.mem_cons_of_mem _ ha) hb)
      (f b x) (hstep b x (List.mem_cons_self _ _) hb)

theorem entryLe_refl (a : HeapEntry) : entryLe a a = true := by
  simp [entryLe]

theorem entryLe_total (a b : HeapEntry) :
    entryLe a b = true ∨ entryLe b a = true := by
  simp only [entryLe, Bool.or_eq_true, decide_eq_true_eq, beq_iff_eq,
    Bool.and_eq_true]
  rcases lt_trichotomy a.1 b.1 with h | h | h
  · exact Or.inl (Or.inl h)
  · rcases Nat.le_total a.2.1 b.2.1 with h2 | h2
    · exact Or.inl (Or.inr ⟨h, by simpa using h2⟩)
    · exact Or.inr (Or.inr ⟨h.symm, by simpa using h2⟩)
  · exact Or.inr (Or.inl h)

theorem entryLe_trans (a b c : HeapEntry) (h1 : entryLe a b = true)
    (h2 : entryLe b c = true) : entryLe a c = true := by
  simp only [entryLe, Bool.or_eq_true, decide_eq_true_eq, beq_iff_eq,
    Bool.and_eq_true] at h1 h2 ⊢
  rcases h1 with h1 | ⟨h1, h1'⟩ <;> rcases h2 with h2 | ⟨h2, h2'⟩
  · exact Or.inl (h1.trans h2)
  · exact Or.inl (h2 ▸ h1)
  · exact Or.inl (h1 ▸ h2)
  · exact Or.inr ⟨h1.trans h2, h1'.trans h2'⟩

theorem heapPopMin_none_iff (l : List HeapEntry) :
    heapPopMin l = none ↔ l = [] := by
  cases l with
  | nil => simp [heapPopMin]
  | cons e es =>
    simp only [heapPopMin]
    constructor
    · intro h
      cases hes : heapPopMin es with
      | none => simp [hes] at h
      | some p =>
        obtain ⟨m, rest⟩ := p
        simp only [hes] at h
        by_cases hle : entryLe e m <;> simp [hle] at h
    · intro h
      cases h

theorem heapPopMin_spec (l : List HeapEntry) (m : HeapEntry)
    (rest : List HeapEntry) (h : heapPopMin l = some (m, rest)) :
    l.Perm (m :: rest) ∧ ∀ e ∈ l, entryLe m e = true := by
  induction l generalizing m rest with
  | nil => cases h
  | cons x xs ih =>
    simp only [heapPopMin] at h
    cases hxs : heapPopMin xs with
    | none =>
      have hnil : xs = [] := (heapPopMin_none_iff xs).mp hxs
      subst hnil
      simp only [heapPopMin] at h
      obtain ⟨rfl, rfl⟩ : x = m ∧ ([] : List HeapEntry) = rest := by
        simpa using h
      exact ⟨List.Perm.refl _, by simpa using entryLe_refl _⟩
    | some p =>
      obtain ⟨m0, rest0⟩ := p
      simp only [hxs] at h
      obtain ⟨hperm0, hmin0⟩ := ih m0 rest0 hxs
      by_cases hle : entryLe x m0 = true
      · simp only [if_pos hle] at h
        obtain ⟨rfl, rfl⟩ : x = m ∧ xs = rest := by simpa using h
        refine ⟨List.Perm.refl _, ?_⟩
        intro e he
        rcases List.mem_cons.mp he with he | he
        · subst he
          exact entryLe_refl _
        · exact entryLe_trans _ _ _ hle (hmin0 e he)
      · simp only [if_neg hle] at h
        obtain ⟨rfl, rfl⟩ : m0 = m ∧ x :: rest0 = rest := by simpa using h
        constructor
        · exact (hperm0.cons x).trans (List.Perm.swap m0 x rest0)
        · intro e he
          rcases List.mem_cons.mp he with he | he
          · subst he
            rcases entryLe_total e m0 with hc | hc
            · exact absurd hc hle
            · exact hc
          · exact hmin0 e he

theorem pushSeq_go (ps : List (Node × ℚ)) :
    ∀ q : PriorityQueue,
      (ps.foldl (fun q p => q.push p.1 p.2) q)._h =
        q._h ++ (List.enumFrom q._push_id ps).map
          (fun ip => (ip.2.2, ip.1, ip.2.1)) ∧
      (ps.foldl (fun q p => q.push p.1 p.2) q)._push_id =
        q._push_id + ps.length := by
  induction ps with
  | nil => intro q; simp
  | cons p rest ih =>
    intro q
    obtain ⟨h1, h2⟩ := ih (q.push p.1 p.2)
    constructor
    · rw [List.foldl_cons, h1]
      simp [PriorityQueue.push, heappush, List.enumFrom]
    · rw [List.foldl_cons, h2]
      simp only [PriorityQueue.push, List.length_cons]
      omega

theorem pushSeq_heap (ps : List (Node × ℚ)) :
    (pushSeq ps)._h = ps.enum.map (fun ip => (ip.2.2, ip.1, ip.2.1)) := by
  have h := (pushSeq_go ps PriorityQueue.pqNew).1
  simpa [pushSeq, PriorityQueue.pqNew, List.enum] using h

theorem pushSeq_id (ps : List (Node × ℚ)) :
    (pushSeq ps)._push_id = ps.length := by
  have h := (pushSeq_go ps PriorityQueue.pqNew).2
  simpa [pushSeq, PriorityQueue.pqNew] using h

theorem pq_pop_of_not_empty (q : PriorityQueue) (h : q.is_empty = false) :
    ∃ x q', q.pop = .ok (x, q') := by
  cases hh : q._h with
  | nil => simp [PriorityQueue.is_empty, hh] at h
  | cons e es =>
    have : heapPopMin q._h ≠ none := by
      rw [Ne, heapPopMin_none_iff, hh]
      simp
    cases hp : heapPopMin q._h with
    | none => exact absurd hp this
    | some p =>
      obtain ⟨⟨p1, i1, x1⟩, rest⟩ := p
      exact ⟨x1, ⟨rest, q._push_id⟩, by simp [PriorityQueue.pop, hp]⟩

theorem pq_pop_mem (q : PriorityQueue) (x : Node) (q' : PriorityQueue)
    (h : q.pop = .ok (x, q')) :
    x ∈ pqItems q ∧ ∀ y ∈ pqItems q', y ∈ pqItems q := by
  unfold PriorityQueue.pop at h
  cases hp : heapPopMin q._h with
  | none => rw [hp] at h; cases h
  | some p =>
    obtain ⟨⟨p1, i1, x1⟩, rest⟩ := p
    rw [hp] at h
    obtain ⟨rfl, rfl⟩ : x1 = x ∧ (⟨rest, q._push_id⟩ : PriorityQueue) = q' := by
      simpa using h
    obtain ⟨hperm, _⟩ := heapPopMin_spec _ _ _ hp
    constructor
    · have : (p1, i1, x1) ∈ q._h := hperm.mem_iff.mpr (List.mem_cons_self _ _)
      exact List.mem_map_of_mem _ this
    · intro y hy
      simp only [pqItems, List.mem_map] at hy ⊢
      obtain ⟨e, he, rfl⟩ := hy
      exact ⟨e, hperm.mem_iff.mpr (List.mem_cons_of_mem _ he), rfl⟩

theorem pqItems_push (q : PriorityQueue) (item : Node) (pri : ℚ) :
    pqItems (q.push item pri) = pqItems q ++ [item] := by
  simp [pqItems, PriorityQueue.push, heappush]

/-! ## Helper lemmas: `SearchResult` constructor calls -/

theorem mkSearchResult_stdKw (an s t : String) (p : List Node) (c : Cost)
    (n : ℕ) (rt : ℚ) (b : Bool) :
    mkSearchResult [] (stdKw an s t p c n rt b) = .ok ⟨an, s, t, p, c, n, rt, b⟩ :=
  rfl

theorem mkSearchResult_ucsKw (p : List Node) (c : Cost) (n : ℕ) (rt : ℚ)
    (b : Bool) (an : String) :
    mkSearchResult [] (ucsKw p c n rt b an) =
      .error (.typeErrorMissingArgs ["start", "goal"]) :=
  rfl

theorem mkSearchResult_dfsArgs (p : List Node) (c : Cost) (n : ℕ) (rt : ℚ)
    (b : Bool) (an : String) :
    mkSearchResult (dfsArgs p c n rt b an) [] =
      .error (.typeErrorMissingArgs ["runtime", "is_optimal"]) :=
  rfl

/-! ## Helper lemmas: chains, parent maps, path reconstruction -/

theorem isChain_append (g : Graph) (l : List Node) (a b : Node)
    (hc : isChain g l = true) (hl : l.getLast? = some a)
    (he : dictContains (g.get_neighbors a) b = true) :
    isChain g (l ++ [b]) = true := by
  induction l with
  | nil => cases hl
  | cons x r ih =>
    cases r with
    | nil =>
      obtain rfl : x = a := by simpa using hl
      simpa [isChain] using he
    | cons y r' =>
      simp only [isChain, Bool.and_eq_true] at hc
      have hl' : (y :: r').getLast? = some a := by
        simpa [List.getLast?_cons_cons] using hl
      have := ih hc.2 hl'
      simp only [List.cons_append, isChain, Bool.and_eq_true]
      exact ⟨hc.1, by simpa [List.cons_append] using this⟩

theorem descending_append (cf : PyDict Node Node) (l : List Node) (x y : Node)
    (hd : descending cf l = true) (hl : l.getLast? = some x)
    (hxy : dictGet cf x = some y) : descending cf (l ++ [y]) = true := by
  induction l with
  | nil => cases hl
  | cons a r ih =>
    cases r with
    | nil =>
      obtain rfl : a = x := by simpa using hl
      simpa [descending] using hxy
    | cons b r' =>
      simp only [descending, Bool.and_eq_true] at hd
      have hl' : (b :: r').getLast? = some x := by
        simpa [List.getLast?_cons_cons] using hl
      have := ih hd.2 hl'
      simp only [List.cons_append, descending, Bool.and_eq_true]
      exact ⟨hd.1, by simpa [List.cons_append] using this⟩

theorem descending_reverse_chain (g : Graph) (cf : PyDict Node Node)
    (hE : EdgeInv g cf) (l : List Node) (hd : descending cf l = true) :
    isChain g l.reverse = true := by
  induction l with
  | nil => simp [isChain]
  | cons x r ih =>
    cases r with
    | nil => simp [isChain]
    | cons y r' =>
      simp only [descending, Bool.and_eq_true, beq_iff_eq] at hd
      have hchain := ih hd.2
      have hlast : (y :: r').reverse.getLast? = some y := by
        rw [List.getLast?_reverse]
        simp
      have hedge : dictContains (g.get_neighbors y) x = true := hE x y hd.1
      have := isChain_append g (y :: r').reverse y x hchain hlast hedge
      simpa [List.reverse_cons] using this

theorem descending_last_parent (cf : PyDict Node Node) (l : List Node)
    (a b : Node) (hd : descending cf l = true) (hh : l.head? = some a)
    (hl : l.getLast? = some b) :
    b = a ∨ ∃ w, dictGet cf w = some b := by
  induction l generalizing a with
  | nil => cases hh
  | cons x r ih =>
    obtain rfl : x = a := by simpa using hh
    cases r with
    | nil =>
      left
      simpa using hl.symm
    | cons y r' =>
      simp only [descending, Bool.and_eq_true, beq_iff_eq] at hd
      have hl' : (y :: r').getLast? = some b := by
        simpa [List.getLast?_cons_cons] using hl
      rcases ih y hd.2 rfl hl' with h | h
      · subst h
        exact Or.inr ⟨x, hd.1⟩
      · exact Or.inr h

theorem reconstructGo_spec (cf : PyDict Node Node) :
    ∀ (fuel : ℕ) (cur : Node) (path out : List Node),
      reconstructGo cf fuel cur path = some out →
      path ≠ [] → path.getLast? = some cur → descending cf path = true →
      ∃ final : List Node, out = final.reverse ∧ final ≠ [] ∧
        final.head? = path.head? ∧ descending cf final = true ∧
        ∃ e, final.getLast? = some e ∧ dictGet cf e = none := by
  intro fuel
  induction fuel with
  | zero => intro cur path out h; cases h
  | succ n ih =>
    intro cur path out h hne hlast hd
    simp only [reconstructGo] at h
    cases hcur : dictGet cf cur with
    | none =>
      rw [hcur] at h
      obtain rfl : path.reverse = out := by simpa using h
      exact ⟨path, rfl, hne, rfl, hd, cur, hlast, hcur⟩
    | some par =>
      rw [hcur] at h
      have hne' : path ++ [par] ≠ [] := by simp
      have hlast' : (path ++ [par]).getLast? = some par := List.getLast?_concat _
      have hd' : descending cf (path ++ [par]) = true :=
        descending_append cf path cur par hd hlast hcur
      obtain ⟨final, rfl, hfne, hfh, hfd, e, hfl, hfe⟩ :=
        ih par (path ++ [par]) out h hne' hlast' hd'
      exact ⟨final, rfl, hfne, by rwa [List.head?_append_of_ne_nil _ hne] at hfh,
        hfd, e, hfl, hfe⟩

/-- Main property of `_reconstruct_path` (base_algorithm.py): under the
parent-map invariants, any terminating reconstruction from a node that is the
start or has a parent yields a path from `s` to that node whose consecutive
nodes are adjacent in the graph. -/
theorem reconstruct_path_spec (g : Graph) (s : Node) (cf : PyDict Node Node)
    (hE : EdgeInv g cf) (hR : RootedInv s cf) (cur : Node)
    (hcur : cur = s ∨ dictContains cf cur = true) (fuel : ℕ) (out : List Node)
    (h : reconstruct_path cf fuel cur = some out) :
    out.head? = some s ∧ out.getLast? = some cur ∧ isChain g out = true := by
  obtain ⟨final, rfl, hfne, hfh, hfd, e, hfl, hfe⟩ :=
    reconstructGo_spec cf fuel cur [cur] _ h (by simp) (by simp) (by simp [descending])
  have hfh' : final.head? = some cur := by simpa using hfh
  have hes : e = s := by
    rcases descending_last_parent cf final cur e hfd hfh' hfl with h1 | h1
    · subst h1
      rcases hcur with h2 | h2
      · exact h2
      · obtain ⟨v, hv⟩ := dictContains_isSome cf e h2
        rw [hv] at hfe
        cases hfe
    · obtain ⟨w, hw⟩ := h1
      rcases hR w e hw with h2 | h2
      · exact h2
      · obtain ⟨v, hv⟩ := dictContains_isSome cf e h2
        rw [hv] at hfe
        cases hfe
  subst hes
  refine ⟨?_, ?_, descending_reverse_chain g cf hE final hfd⟩
  · rw [List.head?_reverse]
    exact hfl
  · rw [List.getLast?_reverse]
    exact hfh'

theorem bfsReconstructGo_spec (cf : PyDict Node Node) :
    ∀ (fuel : ℕ) (cur : Node) (path res : List Node),
      bfsReconstructGo cf fuel cur path = some res →
      descending cf (path ++ [cur]) = true →
      ∃ e, descending cf (res ++ [e]) = true ∧ dictGet cf e = none ∧
        (res ++ [e]).head? = (path ++ [cur]).head? := by
  intro fuel
  induction fuel with
  | zero => intro cur path res h; cases h
  | succ n ih =>
    intro cur path res h hd
    simp only [bfsReconstructGo] at h
    cases hcur : dictGet cf cur with
    | none =>
      rw [hcur] at h
      obtain rfl : path = res := by simpa using h
      exact ⟨cur, hd, hcur, rfl⟩
    | some par =>
      rw [hcur] at h
      have hd' : descending cf ((path ++ [cur]) ++ [par]) = true :=
        descending_append cf (path ++ [cur]) cur par hd (List.getLast?_concat _) hcur
      have hassoc : (path ++ [cur]) ++ [par] = (path ++ [cur]) ++ [par] := rfl
      obtain ⟨e, h1, h2, h3⟩ := ih par (path ++ [cur]) res h hd'
      refine ⟨e, h1, h2, ?_⟩
      rw [h3, List.head?_append_of_ne_nil _ (by simp)]

/-- Main property of `BFS._reconstruct_path` (bfs.py): when the goal has a
parent entry and the parent-map invariants hold, any terminating
reconstruction yields a start-to-goal path with adjacent consecutive nodes. -/
theorem bfs_reconstruct_spec (g : Graph) (s : Node) (cf : PyDict Node Node)
    (hE : EdgeInv g cf) (hR : RootedInv s cf) (t : Node)
    (ht : dictContains cf t = true) (fuel : ℕ) (out : List Node)
    (h : bfs_reconstruct s cf fuel t = some out) :
    out.head? = some s ∧ out.getLast? = some t ∧ isChain g out = true := by
  unfold bfs_reconstruct at h
  cases hgo : bfsReconstructGo cf fuel t [] with
  | none => rw [hgo] at h; cases h
  | some res =>
    rw [hgo] at h
    obtain rfl : (res ++ [s]).reverse = out := by simpa using h
    obtain ⟨e, hd, hnone, hh⟩ := bfsReconstructGo_spec cf fuel t [] res hgo
      (by simp [descending])
    have hresne : res ≠ [] := by
      intro hnil
      subst hnil
      have : e = t := by simpa using hh
      subst this
      obtain ⟨v, hv⟩ := dictContains_isSome cf e ht
      rw [hv] at hnone
      cases hnone
    have hh' : (res ++ [e]).head? = some t := by simpa using hh
    have hhead : res.head? = some t := by
      rwa [List.head?_append_of_ne_nil _ hresne] at hh'
    have hes : e = s := by
      rcases descending_last_parent cf (res ++ [e]) t e hd hh'
          (List.getLast?_concat _) with h1 | h1
      · subst h1
        obtain ⟨v, hv⟩ := dictContains_isSome cf e ht
        rw [hv] at hnone
        cases hnone
      · obtain ⟨w, hw⟩ := h1
        rcases hR w e hw with h2 | h2
        · exact h2
        · obtain ⟨v, hv⟩ := dictContains_isSome cf e h2
          rw [hv] at hnone
          cases hnone
    subst hes
    refine ⟨?_, ?_, descending_reverse_chain g cf hE _ hd⟩
    · rw [List.head?_reverse]
      exact List.getLast?_concat _
    · rw [List.getLast?_reverse]
      exact hh'

theorem isChain_zip (g : Graph) (l : List Node) (hc : isChain g l = true) :
    ∀ ab ∈ l.zip (l.drop 1), dictContains (g.get_neighbors ab.1) ab.2 = true := by
  induction l with
  | nil => intro ab hab; cases hab
  | cons x r ih =>
    cases r with
    | nil => intro ab hab; cases hab
    | cons y r' =>
      simp only [isChain, Bool.and_eq_true] at hc
      intro ab hab
      simp only [List.drop_succ_cons, List.drop_zero, List.zip_cons_cons] at hab
      rcases List.mem_cons.mp hab with h | h
      · subst h
        exact hc.1
      · exact ih hc.2 ab (by simpa using h)

theorem pathCostQ_ok (g : Graph) (l : List Node) (hc : isChain g l = true) :
    ∃ q, pathCostQ g l = .ok q := by
  unfold pathCostQ
  have hmem := isChain_zip g l hc
  have : ∃ q, (l.zip (l.drop 1)).foldl
      (fun acc ab =>
        match acc with
        | .error e => .error e
        | .ok c =>
          match g.get_distance ab.1 ab.2 with
          | .error e => .error e
          | .ok d => .ok (c + d))
      (.ok 0) = Except.ok q := by
    refine foldl_pres (P := fun acc => ∃ q, acc = Except.ok q) _ _ ?_ _ ⟨0, rfl⟩
    intro acc ab hab ⟨q, hq⟩
    subst hq
    obtain ⟨d, hd⟩ := dictContains_isSome _ _ (hmem ab hab)
    have : g.get_distance ab.1 ab.2 = .ok d := by
      unfold Graph.get_distance
      unfold Graph.get_neighbors at hd
      rw [hd]
    rw [this]
    exact ⟨q + d, rfl⟩
  exact this

/-! ## Loop invariants: BFS -/

theorem bfsExpand_inv (g : Graph) (s u : Node) (st : BFSState)
    (hu : u = s ∨ dictContains st.came_from u = true)
    (hE : EdgeInv g st.came_from) (hR : RootedInv s st.came_from)
    (hI : ItemsInv s st.came_from st.frontier) :
    EdgeInv g (bfsExpand g u st).came_from ∧
      RootedInv s (bfsExpand g u st).came_from ∧
      ItemsInv s (bfsExpand g u st).came_from (bfsExpand g u st).frontier := by
  unfold bfsExpand
  have h := foldl_pres
    (P := fun st' : BFSState =>
      (u = s ∨ dictContains st'.came_from u = true) ∧ EdgeInv g st'.came_from ∧
        RootedInv s st'.came_from ∧ ItemsInv s st'.came_from st'.frontier)
    (fun st pair =>
      if pair.1 ∈ st.visited then st
      else { st with
              visited := st.visited ++ [pair.1],
              came_from := dictSet st.came_from pair.1 u,
              frontier := st.frontier ++ [pair.1] })
    (g.get_neighbors u) ?_ st ⟨hu, hE, hR, hI⟩
  · exact ⟨h.2.1, h.2.2.1, h.2.2.2⟩
  · intro st' pair hpair ⟨hu', hE', hR', hI'⟩
    by_cases hv : pair.1 ∈ st'.visited
    · simpa [hv] using ⟨hu', hE', hR', hI'⟩
    · simp only [if_neg hv]
      refine ⟨?_, ?_, ?_, ?_⟩
      · rcases hu' with h | h
        · exact Or.inl h
        · exact Or.inr (dictContains_mono _ _ _ _ h)
      · intro v w hvw
        rw [dictGet_dictSet] at hvw
        by_cases hp : pair.1 = v
        · rw [if_pos hp] at hvw
          obtain rfl : u = w := by simpa using hvw
          subst hp
          exact mem_dictContains _ _ hpair
        · rw [if_neg hp] at hvw
          exact hE' v w hvw
      · intro v w hvw
        rw [dictGet_dictSet] at hvw
        by_cases hp : pair.1 = v
        · rw [if_pos hp] at hvw
          obtain rfl : u = w := by simpa using hvw
          rcases hu' with h | h
          · exact Or.inl h
          · exact Or.inr (dictContains_mono _ _ _ _ h)
        · rw [if_neg hp] at hvw
          rcases hR' v w hvw with h | h
          · exact Or.inl h
          · exact Or.inr (dictContains_mono _ _ _ _ h)
      · intro x hx
        rcases List.mem_append.mp hx with h | h
        · rcases hI' x h with h' | h'
          · exact Or.inl h'
          · exact Or.inr (dictContains_mono _ _ _ _ h')
        · obtain rfl : x = pair.1 := by simpa using h
          exact Or.inr (dictContains_dictSet_self _ _ _)

theorem bfsLoop_inv (g : Graph) (s t : Node) :
    ∀ (fuel : ℕ) (st st' : BFSState),
      bfsLoop g t fuel st = some st' →
      EdgeInv g st.came_from → RootedInv s st.came_from →
      ItemsInv s st.came_from st.frontier →
      EdgeInv g st'.came_from ∧ RootedInv s st'.came_from := by
  intro fuel
  induction fuel with
  | zero => intro st st' h; cases h
  | succ n ih =>
    intro st st' h hE hR hI
    obtain ⟨fr, cf, vis, ne⟩ := st
    cases fr with
    | nil =>
      simp only [bfsLoop] at h
      obtain rfl : (⟨[], cf, vis, ne⟩ : BFSState) = st' := by simpa using h
      exact ⟨hE, hR⟩
    | cons u rest =>
      simp only [bfsLoop] at h
      by_cases hu : u = t
      · rw [if_pos hu] at h
        obtain rfl : (⟨rest, cf, vis, ne⟩ : BFSState) = st' := by simpa using h
        exact ⟨hE, hR⟩
      · rw [if_neg hu] at h
        have hu' : u = s ∨ dictContains cf u = true :=
          hI u (List.mem_cons_self _ _)
        have hIrest : ItemsInv s cf rest := fun x hx =>
          hI x (List.mem_cons_of_mem _ hx)
        obtain ⟨hE2, hR2, hI2⟩ :=
          bfsExpand_inv g s u ⟨rest, cf, vis, ne + 1⟩ hu' hE hR hIrest
        exact ih _ st' h hE2 hR2 hI2

/-! ## Loop invariants: Greedy best-first -/

theorem nodeHeuristic_error (hav : Hav) (g : Graph) (a b : Node) (e : PyErr)
    (h : nodeHeuristic hav g a b = .error e) : ∃ k, e = .keyError k := by
  unfold nodeHeuristic at h
  cases ha : g.get_coordinates a with
  | error e1 =>
    rw [ha] at h
    unfold Graph.get_coordinates at ha
    cases hc : dictGet g.cities a with
    | some c => rw [hc] at ha; cases ha
    | none =>
      rw [hc] at ha
      obtain rfl : PyErr.keyError a = e1 := by simpa using ha
      obtain rfl : PyErr.keyError a = e := by simpa using h
      exact ⟨a, rfl⟩
  | ok p1 =>
    rw [ha] at h
    cases hb : g.get_coordinates b with
    | error e2 =>
      rw [hb] at h
      unfold Graph.get_coordinates at hb
      cases hc : dictGet g.cities b with
      | some c => rw [hc] at hb; cases hb
      | none =>
        rw [hc] at hb
        obtain rfl : PyErr.keyError b = e2 := by simpa using hb
        obtain rfl : PyErr.keyError b = e := by simpa using h
        exact ⟨b, rfl⟩
    | ok p2 =>
      rw [hb] at h
      cases h

theorem greedyExpand_inv (hav : Hav) (g : Graph) (s t u : Node)
    (st st2 : GreedyState) (h : greedyExpand hav g t u st = .ok st2)
    (hu : u = s ∨ dictContains st.came_from u = true)
    (hE : EdgeInv g st.came_from) (hR : RootedInv s st.came_from)
    (hI : ItemsInv s st.came_from (pqItems st.frontier)) :
    EdgeInv g st2.came_from ∧ RootedInv s st2.came_from ∧
      ItemsInv s st2.came_from (pqItems st2.frontier) := by
  have hfold := foldl_pres
    (P := fun acc : Except PyErr GreedyState => ∀ st2, acc = .ok st2 →
      (u = s ∨ dictContains st2.came_from u = true) ∧ EdgeInv g st2.came_from ∧
        RootedInv s st2.came_from ∧ ItemsInv s st2.came_from (pqItems st2.frontier))
    (fun acc pair =>
      match acc with
      | .error e => .error e
      | .ok st =>
        if pair.1 ∈ st.visited then .ok st
        else
          match nodeHeuristic hav g pair.1 t with
          | .error e => .error e
          | .ok hv =>
            .ok { st with
                    visited := st.visited ++ [pair.1],
                    came_from := dictSet st.came_from pair.1 u,
                    frontier := st.frontier.push pair.1 hv })
    (g.get_neighbors u) ?_ (.ok st)
    (fun st2 hst2 => by
      obtain rfl : st = st2 := by simpa using hst2
      exact ⟨hu, hE, hR, hI⟩)
  · have := hfold st2 (by rw [← h]; rfl)
    exact ⟨this.2.1, this.2.2.1, this.2.2.2⟩
  · intro acc pair hpair hacc
    cases acc with
    | error e => intro st2 hst2; cases hst2
    | ok stp =>
      obtain ⟨hu', hE', hR', hI'⟩ := hacc stp rfl
      by_cases hv : pair.1 ∈ stp.visited
      · simpa [hv] using hacc
      · simp only [if_neg hv]
        cases hh : nodeHeuristic hav g pair.1 t with
        | error e => intro st2 hst2; cases hst2
        | ok hvq =>
          intro st2 hst2
          obtain rfl : _ = st2 := by simpa using hst2
          refine ⟨?_, ?_, ?_, ?_⟩
          · rcases hu' with h' | h'
            · exact Or.inl h'
            · exact Or.inr (dictContains_mono _ _ _ _ h')
          · intro v w hvw
            rw [dictGet_dictSet] at hvw
            by_cases hp : pair.1 = v
            · rw [if_pos hp] at hvw
              obtain rfl : u = w := by simpa using hvw
              subst hp
              exact mem_dictContains _ _ hpair
            · rw [if_neg hp] at hvw
              exact hE' v w hvw
          · intro v w hvw
            rw [dictGet_dictSet] at hvw
            by_cases hp : pair.1 = v
            · rw [if_pos hp] at hvw
              obtain rfl : u = w := by simpa using hvw
              rcases hu' with h' | h'
              · exact Or.inl h'
              · exact Or.inr (dictContains_mono _ _ _ _ h')
            · rw [if_neg hp] at hvw
              rcases hR' v w hvw with h' | h'
              · exact Or.inl h'
              · exact Or.inr (dictContains_mono _ _ _ _ h')
          · intro x hx
            rw [pqItems_push] at hx
            rcases List.mem_append.mp hx with h' | h'
            · rcases hI' x h' with h'' | h''
              · exact Or.inl h''
              · exact Or.inr (dictContains_mono _ _ _ _ h'')
            · obtain rfl : x = pair.1 := by simpa using h'
              exact Or.inr (dictContains_dictSet_self _ _ _)

theorem greedyLoop_path (hav : Hav) (g : Graph) (s t : Node) :
    ∀ (fuel : ℕ) (st : GreedyState) (r : SearchResult),
      greedyLoop hav g s t fuel st = some (.ok r) →
      EdgeInv g st.came_from → RootedInv s st.came_from →
      ItemsInv s st.came_from (pqItems st.frontier) →
      r.path ≠ [] → pathOkB g s t r.path = true := by
  intro fuel
  induction fuel with
  | zero => intro st r h; cases h
  | succ n ih =>
    intro st r h hE hR hI hne
    simp only [greedyLoop] at h
    by_cases hemp : st.frontier.is_empty
    · rw [if_pos hemp] at h
      rw [mkSearchResult_stdKw] at h
      obtain rfl : _ = r := by simpa using h
      simp at hne
    · rw [if_neg hemp] at h
      cases hpop : st.frontier.pop with
      | error e =>
        simp only [hpop] at h
        cases h
      | ok p =>
        obtain ⟨current, fr'⟩ := p
        simp only [hpop] at h
        obtain ⟨hmem, hsub⟩ := pq_pop_mem _ _ _ hpop
        by_cases hcur : current = t
        · rw [if_pos hcur] at h
          cases hrec : reconstruct_path st.came_from (n + 1) current with
          | none => simp only [hrec] at h; cases h
          | some path =>
            simp only [hrec] at h
            cases hcost : pathCostQ g path with
            | error e => simp only [hcost] at h; cases h
            | ok cost =>
              simp only [hcost, mkSearchResult_stdKw] at h
              obtain rfl : _ = r := by simpa using h
              have hcur' : current = s ∨ dictContains st.came_from current = true :=
                hI current hmem
              obtain ⟨h1, h2, h3⟩ :=
                reconstruct_path_spec g s st.came_from hE hR current hcur' _ _ hrec
              subst hcur
              simp [pathOkB, h1, h2, h3]
        · rw [if_neg hcur] at h
          cases hexp : greedyExpand hav g t current
              { st with frontier := fr',
                        nodes_expanded := st.nodes_expanded + 1 } with
          | error e => simp only [hexp] at h; cases h
          | ok st2 =>
            simp only [hexp] at h
            have hIsub : ItemsInv s st.came_from (pqItems fr') := fun x hx =>
              hI x (hsub x hx)
            obtain ⟨hE2, hR2, hI2⟩ := greedyExpand_inv hav g s t current _ _ hexp
              (hI current hmem) hE hR hIsub
            exact ih st2 r h hE2 hR2 hI2 hne

/-! ## Loop invariants: A* -/

theorem astarRelax_inv (hav : Hav) (gr : Graph) (s t u : Node)
    (st st2 : AStarState) (h : astarRelax hav gr t u st = .ok st2)
    (hu : u = s ∨ dictContains st.came_from u = true)
    (hE : EdgeInv gr st.came_from) (hR : RootedInv s st.came_from)
    (hI : ItemsInv s st.came_from (pqItems st.frontier)) :
    EdgeInv gr st2.came_from ∧ RootedInv s st2.came_from ∧
      ItemsInv s st2.came_from (pqItems st2.frontier) := by
  have hfold := foldl_pres
    (P := fun acc : Except PyErr AStarState => ∀ st2, acc = .ok st2 →
      (u = s ∨ dictContains st2.came_from u = true) ∧ EdgeInv gr st2.came_from ∧
        RootedInv s st2.came_from ∧ ItemsInv s st2.came_from (pqItems st2.frontier))
    (fun acc pair =>
      match acc with
      | .error e => .error e
      | .ok st =>
        match dictGet st.gmap u with
        | none => .error (.keyError u)
        | some gcur =>
          let tentative := gcur + pair.2
          if Cost.lt (.fin tentative)
              ((dictGet st.gmap pair.1).elim Cost.inf Cost.fin) then
            match nodeHeuristic hav gr pair.1 t with
            | .error e => .error e
            | .ok hv =>
              .ok { st with
                      gmap := dictSet st.gmap pair.1 tentative,
                      came_from := dictSet st.came_from pair.1 u,
                      frontier := st.frontier.push pair.1 (tentative + hv) }
          else .ok st)
    (gr.get_neighbors u) ?_ (.ok st)
    (fun st2 hst2 => by
      obtain rfl : st = st2 := by simpa using hst2
      exact ⟨hu, hE, hR, hI⟩)
  · have := hfold st2 (by rw [← h]; rfl)
    exact ⟨this.2.1, this.2.2.1, this.2.2.2⟩
  · intro acc pair hpair hacc
    cases acc with
    | error e => intro st2 hst2; cases hst2
    | ok stp =>
      obtain ⟨hu', hE', hR', hI'⟩ := hacc stp rfl
      dsimp only
      cases hg : dictGet stp.gmap u with
      | none => intro st2 hst2; cases hst2
      | some gcur =>
        simp only [hg]
        by_cases hlt : Cost.lt (.fin (gcur + pair.2))
            ((dictGet stp.gmap pair.1).elim Cost.inf Cost.fin)
        · simp only [if_pos hlt]
          cases hh : nodeHeuristic hav gr pair.1 t with
          | error e => intro st2 hst2; cases hst2
          | ok hvq =>
            intro st2 hst2
            obtain rfl : _ = st2 := by simpa using hst2
            refine ⟨?_, ?_, ?_, ?_⟩
            · rcases hu' with h' | h'
              · exact Or.inl h'
              · exact Or.inr (dictContains_mono _ _ _ _ h')
            · intro v w hvw
              rw [dictGet_dictSet] at hvw
              by_cases hp : pair.1 = v
              · rw [if_pos hp] at hvw
                obtain rfl : u = w := by simpa using hvw
                subst hp
                exact mem_dictContains _ _ hpair
              · rw [if_neg hp] at hvw
                exact hE' v w hvw
            · intro v w hvw
              rw [dictGet_dictSet] at hvw
              by_cases hp : pair.1 = v
              · rw [if_pos hp] at hvw
                obtain rfl : u = w := by simpa using hvw
                rcases hu' with h' | h'
                · exact Or.inl h'
                · exact Or.inr (dictContains_mono _ _ _ _ h')
              · rw [if_neg hp] at hvw
                rcases hR' v w hvw with h' | h'
                · exact Or.inl h'
                · exact Or.inr (dictContains_mono _ _ _ _ h')
            · intro x hx
              rw [pqItems_push] at hx
              rcases List.mem_append.mp hx with h' | h'
              · rcases hI' x h' with h'' | h''
                · exact Or.inl h''
                · exact Or.inr (dictContains_mono _ _ _ _ h'')
              · obtain rfl : x = pair.1 := by simpa using h'
                exact Or.inr (dictContains_dictSet_self _ _ _)
        · simp only [if_neg hlt]
          intro st2 hst2
          obtain rfl : stp = st2 := by simpa using hst2
          exact ⟨hu', hE', hR', hI'⟩

theorem astarLoop_path (hav : Hav) (gr : Graph) (s t : Node) :
    ∀ (fuel : ℕ) (st : AStarState) (r : SearchResult),
      astarLoop hav gr s t fuel st = some (.ok r) →
      EdgeInv gr st.came_from → RootedInv s st.came_from →
      ItemsInv s st.came_from (pqItems st.frontier) →
      r.path ≠ [] → pathOkB gr s t r.path = true := by
  intro fuel
  induction fuel with
  | zero => intro st r h; cases h
  | succ n ih =>
    intro st r h hE hR hI hne
    simp only [astarLoop] at h
    by_cases hemp : st.frontier.is_empty
    · rw [if_pos hemp] at h
      rw [mkSearchResult_stdKw] at h
      obtain rfl : _ = r := by simpa using h
      simp at hne
    · rw [if_neg hemp] at h
      cases hpop : st.frontier.pop with
      | error e =>
        simp only [hpop] at h
        cases h
      | ok p =>
        obtain ⟨current, fr'⟩ := p
        simp only [hpop] at h
        obtain ⟨hmem, hsub⟩ := pq_pop_mem _ _ _ hpop
        by_cases hcur : current = t
        · rw [if_pos hcur] at h
          cases hrec : reconstruct_path st.came_from (n + 1) current with
          | none => simp only [hrec] at h; cases h
          | some path =>
            simp only [hrec] at h
            cases hg : dictGet st.gmap current with
            | none => simp only [hg] at h; cases h
            | some gc =>
              simp only [hg, mkSearchResult_stdKw] at h
              obtain rfl : _ = r := by simpa using h
              have hcur' : current = s ∨ dictContains st.came_from current = true :=
                hI current hmem
              obtain ⟨h1, h2, h3⟩ :=
                reconstruct_path_spec gr s st.came_from hE hR current hcur' _ _ hrec
              subst hcur
              simp [pathOkB, h1, h2, h3]
        · rw [if_neg hcur] at h
          cases hexp : astarRelax hav gr t current
              { st with frontier := fr',
                        nodes_expanded := st.nodes_expanded + 1 } with
          | error e => simp only [hexp] at h; cases h
          | ok st2 =>
            simp only [hexp] at h
            have hIsub : ItemsInv s st.came_from (pqItems fr') := fun x hx =>
              hI x (hsub x hx)
            obtain ⟨hE2, hR2, hI2⟩ := astarRelax_inv hav gr s t current _ _ hexp
              (hI current hmem) hE hR hIsub
            exact ih st2 r h hE2 hR2 hI2 hne

/-! ## Loop invariants: UCS -/

theorem ucsRelax_inv (g : Graph) (u : Node) (cc : ℚ) (st : UCSState)
    (hK : ∀ x ∈ pqItems st.frontier, dictContains st.cost_so_far x = true) :
    ∀ x ∈ pqItems (ucsRelax g u cc st).frontier,
      dictContains (ucsRelax g u cc st).cost_so_far x = true := by
  unfold ucsRelax
  have h := foldl_pres
    (P := fun st' : UCSState =>
      ∀ x ∈ pqItems st'.frontier, dictContains st'.cost_so_far x = true)
    (fun st pair =>
      let new_cost := cc + pair.2
      if Cost.lt (.fin new_cost)
          ((dictGet st.cost_so_far pair.1).elim Cost.inf Cost.fin) then
        { st with
            cost_so_far := dictSet st.cost_so_far pair.1 new_cost,
            came_from := dictSet st.came_from pair.1 u,
            frontier := st.frontier.push pair.1 new_cost }
      else st)
    (g.get_neighbors u) ?_ st hK
  · exact h
  · intro st' pair hpair hK'
    dsimp only
    by_cases hlt : Cost.lt (.fin (cc + pair.2))
        ((dictGet st'.cost_so_far pair.1).elim Cost.inf Cost.fin)
    · simp only [if_pos hlt]
      intro x hx
      rw [pqItems_push] at hx
      rcases List.mem_append.mp hx with h' | h'
      · exact dictContains_mono _ _ _ _ (hK' x h')
      · obtain rfl : x = pair.1 := by simpa using h'
        exact dictContains_dictSet_self _ _ _
    · simpa [if_neg hlt] using hK'

/-- Every terminating run of the UCS loop ends in the constructor-arity
`TypeError` (both `SearchResult(...)` call sites of ucs.py omit `start` and
`goal`). -/
theorem ucsLoop_err (g : Graph) (t : Node) :
    ∀ (fuel : ℕ) (st : UCSState) (res : Except PyErr SearchResult),
      ucsLoop g t fuel st = some res →
      (∀ x ∈ pqItems st.frontier, dictContains st.cost_so_far x = true) →
      res = .error (.typeErrorMissingArgs ["start", "goal"]) := by
  intro fuel
  induction fuel with
  | zero => intro st res h; cases h
  | succ n ih =>
    intro st res h hK
    simp only [ucsLoop] at h
    by_cases hemp : st.frontier.is_empty
    · rw [if_pos hemp] at h
      rw [mkSearchResult_ucsKw] at h
      obtain rfl : _ = res := by simpa using h
      rfl
    · rw [if_neg hemp] at h
      cases hpop : st.frontier.pop with
      | error e =>
        obtain ⟨x, q', hq⟩ := pq_pop_of_not_empty _ (by
          cases he : st.frontier.is_empty
          · rfl
          · exact absurd he hemp)
        rw [hq] at hpop
        cases hpop
      | ok p =>
        obtain ⟨current, fr'⟩ := p
        simp only [hpop] at h
        obtain ⟨hmem, hsub⟩ := pq_pop_mem _ _ _ hpop
        obtain ⟨cc, hcc⟩ := dictContains_isSome _ _ (hK current hmem)
        simp only [hcc] at h
        by_cases hcur : current = t
        · rw [if_pos hcur] at h
          cases hrec : reconstruct_path st.came_from (n + 1) current with
          | none => simp only [hrec] at h; cases h
          | some path =>
            simp only [hrec, mkSearchResult_ucsKw] at h
            obtain rfl : _ = res := by simpa using h
            rfl
        · rw [if_neg hcur] at h
          have hK2 := ucsRelax_inv g current cc
            { st with frontier := fr', nodes_expanded := st.nodes_expanded + 1 }
            (fun x hx => hK x (hsub x hx))
          exact ih _ res h hK2

/-- UCS (code claim C3): whatever graph and endpoints, a terminating
`UCS.search` raises the constructor-arity `TypeError`. -/
theorem ucs_search_err (g : Graph) (s t : Node) (fuel : ℕ)
    (res : Except PyErr SearchResult) (h : ucs_search g s t fuel = some res) :
    res = .error (.typeErrorMissingArgs ["start", "goal"]) := by
  unfold ucs_search at h
  refine ucsLoop_err g t fuel _ res h ?_
  intro x hx
  obtain rfl : x = s := by
    simpa [pqItems, PriorityQueue.pqNew, PriorityQueue.push, heappush] using hx
  simp [dictContains, dictGet]

/-! ## Loop invariants: DFS -/

theorem dfsHelper_inv (g : Graph) (s t : Node) :
    ∀ (fuel : ℕ) (node : Node) (visited : List Node) (cf : PyDict Node Node)
      (exp : ℕ) (b : Bool) (v' : List Node) (cf' : PyDict Node Node) (e' : ℕ),
      dfsHelper g t fuel node visited cf exp = some (b, v', cf', e') →
      (node = s ∨ dictContains cf node = true) →
      EdgeInv g cf → RootedInv s cf →
      EdgeInv g cf' ∧ RootedInv s cf' ∧
        (∀ k, dictContains cf k = true → dictContains cf' k = true) := by
  intro fuel
  induction fuel with
  | zero => intro node visited cf exp b v' cf' e' h; cases h
  | succ n ih =>
    intro node visited cf exp b v' cf' e' h hnode hE hR
    simp only [dfsHelper] at h
    by_cases hg : node = t
    · rw [if_pos hg] at h
      obtain ⟨rfl, rfl, rfl, rfl⟩ :
          true = b ∧ visited = v' ∧ cf = cf' ∧ exp = e' := by simpa using h
      exact ⟨hE, hR, fun k hk => hk⟩
    · rw [if_neg hg] at h
      have hfold := foldl_pres
        (P := fun acc : Option (Bool × List Node × PyDict Node Node × ℕ) =>
          ∀ b2 v2 cf2 e2, acc = some (b2, v2, cf2, e2) →
            (node = s ∨ dictContains cf2 node = true) ∧ EdgeInv g cf2 ∧
              RootedInv s cf2 ∧
              (∀ k, dictContains cf k = true → dictContains cf2 k = true))
        (fun acc pair =>
          match acc with
          | none => none
          | some (true, st) => some (true, st)
          | some (false, v, c, e) =>
            if pair.1 ∈ v then some (false, v, c, e)
            else dfsHelper g t n pair.1 v (dictSet c pair.1 node) e)
        (g.get_neighbors node) ?_ (some (false, visited ++ [node], cf, exp + 1))
        (fun b2 v2 cf2 e2 hacc => by
          obtain ⟨rfl, rfl, rfl, rfl⟩ :
              false = b2 ∧ visited ++ [node] = v2 ∧ cf = cf2 ∧ exp + 1 = e2 := by
            simpa using hacc
          exact ⟨hnode, hE, hR, fun k hk => hk⟩)
      · obtain ⟨_, hE', hR', hmono⟩ := hfold b v' cf' e' h
        exact ⟨hE', hR', hmono⟩
      · intro acc pair hpair hacc
        cases acc with
        | none => intro b2 v2 cf2 e2 hx; cases hx
        | some q =>
          obtain ⟨bq, vq, cq, eq'⟩ := q
          cases bq with
          | true =>
            intro b2 v2 cf2 e2 hx
            obtain ⟨rfl, rfl, rfl, rfl⟩ :
                true = b2 ∧ vq = v2 ∧ cq = cf2 ∧ eq' = e2 := by simpa using hx
            exact hacc true vq cq eq' rfl
          | false =>
            obtain ⟨hnode', hE', hR', hmono'⟩ := hacc false vq cq eq' rfl
            dsimp only
            by_cases hv : pair.1 ∈ vq
            · simp only [if_pos hv]
              exact hacc
            · simp only [if_neg hv]
              intro b2 v2 cf2 e2 hx
              have hEset : EdgeInv g (dictSet cq pair.1 node) := by
                intro v w hvw
                rw [dictGet_dictSet] at hvw
                by_cases hp : pair.1 = v
                · rw [if_pos hp] at hvw
                  obtain rfl : node = w := by simpa using hvw
                  subst hp
                  exact mem_dictContains _ _ hpair
                · rw [if_neg hp] at hvw
                  exact hE' v w hvw
              have hRset : RootedInv s (dictSet cq pair.1 node) := by
                intro v w hvw
                rw [dictGet_dictSet] at hvw
                by_cases hp : pair.1 = v
                · rw [if_pos hp] at hvw
                  obtain rfl : node = w := by simpa using hvw
                  rcases hnode' with h' | h'
                  · exact Or.inl h'
                  · exact Or.inr (dictContains_mono _ _ _ _ h')
                · rw [if_neg hp] at hvw
                  rcases hR' v w hvw with h' | h'
                  · exact Or.inl h'
                  · exact Or.inr (dictContains_mono _ _ _ _ h')
              obtain ⟨hE2, hR2, hmono2⟩ := ih pair.1 vq (dictSet cq pair.1 node)
                eq' b2 v2 cf2 e2 hx
                (Or.inr (dictContains_dictSet_self _ _ _)) hEset hRset
              refine ⟨?_, hE2, hR2, ?_⟩
              · rcases hnode' with h' | h'
                · exact Or.inl h'
                · exact Or.inr (hmono2 node
                    (dictContains_mono _ _ _ _ h'))
              · intro k hk
                exact hmono2 k (dictContains_mono _ _ _ _ (hmono' k hk))

/-- DFS (code claim C3): whatever graph and endpoints, a terminating
`DFS.search` raises the constructor-arity `TypeError` (six positional
arguments for the eight-field dataclass). -/
theorem dfs_search_err (g : Graph) (s t : Node) (fuel : ℕ)
    (res : Except PyErr SearchResult) (h : dfs_search g s t fuel = some res) :
    res = .error (.typeErrorMissingArgs ["runtime", "is_optimal"]) := by
  unfold dfs_search at h
  cases hh : dfsHelper g t fuel s [] [] 0 with
  | none => rw [hh] at h; cases h
  | some q =>
    obtain ⟨b, v, cf, exp⟩ := q
    simp only [hh] at h
    obtain ⟨hE, hR, _⟩ := dfsHelper_inv g s t fuel s [] [] 0 b v cf exp hh
      (Or.inl rfl) (fun v u hv => by cases hv) (fun v u hv => by cases hv)
    by_cases hb : (!(dictContains cf t) && !(t == s)) = true
    · simp only [if_pos hb, mkSearchResult_dfsArgs] at h
      obtain rfl : _ = res := by simpa using h
      rfl
    · simp only [if_neg hb] at h
      by_cases hst : (s == t) = true
      · simp only [if_pos hst] at h
        have hz : pathCostQ g [s] = .ok 0 := rfl
        simp only [hz, mkSearchResult_dfsArgs] at h
        obtain rfl : _ = res := by simpa using h
        rfl
      · simp only [if_neg hst] at h
        have hts : ¬ t = s := by
          intro hts
          exact hst (by simp [hts])
        have hcont : dictContains cf t = true := by
          cases hc : dictContains cf t
          · exact absurd (by simp [hc, hts]) hb
          · rfl
        cases hrec : reconstruct_path cf fuel t with
        | none => simp only [hrec] at h; cases h
        | some path =>
          simp only [hrec] at h
          obtain ⟨_, _, hchain⟩ :=
            reconstruct_path_spec g s cf hE hR t (Or.inr hcont) fuel path hrec
          obtain ⟨q, hq⟩ := pathCostQ_ok g path hchain
          simp only [hq, mkSearchResult_dfsArgs] at h
          obtain rfl : _ = res := by simpa using h
          rfl

/-- BFS (claim C5 core): any returned result with a non-empty path is a
start-to-goal path whose consecutive nodes are adjacent. -/
theorem bfs_search_path (g : Graph) (s t : Node) (fuel : ℕ) (r : SearchResult)
    (h : bfs_search g s t fuel = some (.ok r)) (hne : r.path ≠ []) :
    pathOkB g s t r.path = true := by
  unfold bfs_search at h
  cases hloop : bfsLoop g t fuel ⟨[s], [], [s], 0⟩ with
  | none => rw [hloop] at h; cases h
  | some st =>
    simp only [hloop] at h
    obtain ⟨hE, hR⟩ := bfsLoop_inv g s t fuel _ st hloop
      (fun v u hv => by cases hv) (fun v u hv => by cases hv)
      (fun x hx => Or.inl (by simpa using hx))
    by_cases hb : (!(dictContains st.came_from t) && !(t == s)) = true
    · simp only [if_pos hb, mkSearchResult_stdKw] at h
      obtain rfl : _ = r := by simpa using h
      simp at hne
    · simp only [if_neg hb] at h
      by_cases hst : (s == t) = true
      · simp only [if_pos hst] at h
        have hz : pathCostQ g [s] = .ok 0 := rfl
        simp only [hz, mkSearchResult_stdKw] at h
        obtain rfl : _ = r := by simpa using h
        have hts : s = t := by simpa using hst
        subst hts
        simp [pathOkB, isChain]
      · simp only [if_neg hst] at h
        have hts : ¬ t = s := by
          intro hts
          exact hst (by simp [hts])
        have hcont : dictContains st.came_from t = true := by
          cases hc : dictContains st.came_from t
          · exact absurd (by simp [hc, hts]) hb
          · rfl
        cases hrec : bfs_reconstruct s st.came_from fuel t with
        | none => simp only [hrec] at h; cases h
        | some path =>
          simp only [hrec] at h
          obtain ⟨h1, h2, h3⟩ :=
            bfs_reconstruct_spec g s st.came_from hE hR t hcont fuel path hrec
          cases hcost : pathCostQ g path with
          | error e => simp only [hcost] at h; cases h
          | ok cost =>
            simp only [hcost, mkSearchResult_stdKw] at h
            obtain rfl : _ = r := by simpa using h
            simp [pathOkB, h1, h2, h3]

/-! ## Path invariants: IDA* -/

theorem idastarBounded_path (hav : Hav) (g : Graph) (s t : Node) :
    ∀ (fuel : ℕ) (path : List Node) (gcosts : List ℚ) (th : ℚ) (exp : ℕ)
      (p : List Node) (gc : List ℚ) (e' : ℕ),
      idastarBounded hav g t fuel path gcosts th exp = some (.ok (.found p gc, e')) →
      path.head? = some s → isChain g path = true →
      p.head? = some s ∧ p.getLast? = some t ∧ isChain g p = true := by
  intro fuel
  induction fuel with
  | zero => intro path gcosts th exp p gc e' h; cases h
  | succ n ih =>
    intro path gcosts th exp p gc e' h hhead hchain
    simp only [idastarBounded] at h
    cases hl : path.getLast? with
    | none => simp only [hl] at h; cases h
    | some node =>
      cases hgl : gcosts.getLast? with
      | none => simp only [hl, hgl] at h; cases h
      | some gv =>
        simp only [hl, hgl] at h
        cases hh : nodeHeuristic hav g node t with
        | error e => simp only [hh] at h; cases h
        | ok hv =>
          simp only [hh] at h
          by_cases hth : th < gv + hv
          · rw [if_pos hth] at h
            cases h
          · rw [if_neg hth] at h
            by_cases hgoal : node = t
            · rw [if_pos hgoal] at h
              obtain ⟨⟨rfl, rfl⟩, rfl⟩ : (path = p ∧ gcosts = gc) ∧ exp = e' := by
                simpa using h
              subst hgoal
              exact ⟨hhead, hl, hchain⟩
            · rw [if_neg hgoal] at h
              have hpne : path ≠ [] := by
                intro hx
                rw [hx] at hhead
                cases hhead
              have hfold := foldl_pres
                (P := fun acc : Option (Except PyErr (BSRes × ℕ)) =>
                  ∀ p2 gc2 e2, acc = some (.ok (.found p2 gc2, e2)) →
                    p2.head? = some s ∧ p2.getLast? = some t ∧
                      isChain g p2 = true)
                (fun acc pair =>
                  match acc with
                  | none => none
                  | some (.error e) => some (.error e)
                  | some (.ok (.found p gc, e)) => some (.ok (.found p gc, e))
                  | some (.ok (.exceeded m, e)) =>
                    if pair.1 ∈ path then some (.ok (.exceeded m, e))
                    else
                      match idastarBounded hav g t n (path ++ [pair.1])
                          (gcosts ++ [gv + pair.2]) th e with
                      | none => none
                      | some (.error e') => some (.error e')
                      | some (.ok (.found p gc, e')) => some (.ok (.found p gc, e'))
                      | some (.ok (.exceeded m', e')) =>
                        some (.ok (.exceeded (if Cost.lt m' m then m' else m), e')))
                (g.get_neighbors node) ?_ (some (.ok (.exceeded .inf, exp + 1)))
                (fun p2 gc2 e2 hacc => by cases hacc)
              · exact hfold p gc e' h
              · intro acc pair hpair hacc
                match acc with
                | none => intro p2 gc2 e2 hx; cases hx
                | some (.error e) => intro p2 gc2 e2 hx; exact absurd hx (by simp)
                | some (.ok (.found pf gcf, ef)) =>
                  intro p2 gc2 e2 hx
                  obtain ⟨⟨rfl, rfl⟩, rfl⟩ : (pf = p2 ∧ gcf = gc2) ∧ ef = e2 := by
                    simpa using hx
                  exact hacc _ _ _ rfl
                | some (.ok (.exceeded m, em)) =>
                  dsimp only
                  by_cases hmem : pair.1 ∈ path
                  · simp only [if_pos hmem]
                    intro p2 gc2 e2 hx
                    exact absurd hx (by simp)
                  · simp only [if_neg hmem]
                    cases hrec : idastarBounded hav g t n (path ++ [pair.1])
                        (gcosts ++ [gv + pair.2]) th em with
                    | none => intro p2 gc2 e2 hx; cases hx
                    | some res =>
                      match res with
                      | .error e => intro p2 gc2 e2 hx; exact absurd hx (by simp)
                      | .ok (.found pf gcf, ef) =>
                        intro p2 gc2 e2 hx
                        obtain ⟨⟨rfl, rfl⟩, rfl⟩ : (pf = p2 ∧ gcf = gc2) ∧ ef = e2 := by
                          simpa using hx
                        refine ih (path ++ [pair.1]) (gcosts ++ [gv + pair.2])
                          th em _ _ _ hrec ?_ ?_
                        · rwa [List.head?_append_of_ne_nil _ hpne]
                        · exact isChain_append g path node pair.1 hchain hl
                            (mem_dictContains _ _ hpair)
                      | .ok (.exceeded m', ef) =>
                        intro p2 gc2 e2 hx
                        exact absurd hx (by simp)

theorem idastarLoop_path (hav : Hav) (g : Graph) (s t : Node) :
    ∀ (fuel : ℕ) (th : ℚ) (exp : ℕ) (r : SearchResult),
      idastarLoop hav g s t fuel th exp = some (.ok r) →
      r.path ≠ [] → pathOkB g s t r.path = true := by
  intro fuel
  induction fuel with
  | zero => intro th exp r h; cases h
  | succ n ih =>
    intro th exp r h hne
    simp only [idastarLoop] at h
    cases hb : idastarBounded hav g t (n + 1) [s] [0] th exp with
    | none => simp only [hb] at h; cases h
    | some res =>
      match res with
      | .error e => simp only [hb] at h; cases h
      | .ok (.found p gc, e') =>
        simp only [hb] at h
        cases hgl : gc.getLast? with
        | none => simp only [hgl] at h; cases h
        | some c =>
          simp only [hgl, mkSearchResult_stdKw] at h
          obtain rfl : _ = r := by simpa using h
          obtain ⟨h1, h2, h3⟩ := idastarBounded_path hav g s t (n + 1) [s] [0]
            th exp p gc e' hb (by simp) (by simp [isChain])
          simp [pathOkB, h1, h2, h3]
      | .ok (.exceeded .inf, e') =>
        simp only [hb, mkSearchResult_stdKw] at h
        obtain rfl : _ = r := by simpa using h
        simp at hne
      | .ok (.exceeded (.fin q), e') =>
        simp only [hb] at h
        exact ih q e' r h hne

theorem idastar_search_path (hav : Hav) (g : Graph) (s t : Node) (fuel : ℕ)
    (r : SearchResult) (h : idastar_search hav g s t fuel = some (.ok r))
    (hne : r.path ≠ []) : pathOkB g s t r.path = true := by
  unfold idastar_search at h
  cases hh : nodeHeuristic hav g s t with
  | error e => simp only [hh] at h; cases h
  | ok h0 =>
    simp only [hh] at h
    exact idastarLoop_path hav g s t fuel h0 0 r h hne

/-! ## Path invariants: IDS -/

theorem idsDls_path (g : Graph) (t : Node) :
    ∀ (depth : ℕ) (node : Node) (path : List Node) (exp : ℕ)
      (out : List Node) (exp' : ℕ),
      idsDls g t depth node path exp = (some out, exp') →
      out.head? = some node ∧ out.getLast? = some t ∧ isChain g out = true := by
  intro depth
  induction depth with
  | zero =>
    intro node path exp out exp' h
    simp only [idsDls] at h
    by_cases hg : node = t
    · rw [if_pos hg] at h
      obtain ⟨rfl, rfl⟩ : [node] = out ∧ exp = exp' := by simpa using h
      subst hg
      exact ⟨rfl, rfl, rfl⟩
    · rw [if_neg hg] at h
      simp at h
  | succ d ih =>
    intro node path exp out exp' h
    simp only [idsDls] at h
    by_cases hg : node = t
    · rw [if_pos hg] at h
      obtain ⟨rfl, rfl⟩ : [node] = out ∧ exp = exp' := by simpa using h
      subst hg
      exact ⟨rfl, rfl, rfl⟩
    · rw [if_neg hg] at h
      have hfold := foldl_pres
        (P := fun acc : Option (List Node) × ℕ =>
          ∀ out2 exp2, acc = (some out2, exp2) →
            out2.head? = some node ∧ out2.getLast? = some t ∧
              isChain g out2 = true)
        (fun acc pair =>
          match acc with
          | (some r, e) => (some r, e)
          | (none, e) =>
            if pair.1 ∈ path then (none, e)
            else
              match idsDls g t d pair.1 (path ++ [pair.1]) e with
              | (some r, e') => (some (node :: r), e')
              | (none, e') => (none, e'))
        (g.get_neighbors node) ?_ (none, exp + 1)
        (fun out2 exp2 hacc => by cases hacc)
      · exact hfold out exp' h
      · intro acc pair hpair hacc
        obtain ⟨ra, ea⟩ := acc
        match ra with
        | some rr =>
          intro out2 exp2 hx
          obtain ⟨rfl, rfl⟩ : rr = out2 ∧ ea = exp2 := by simpa using hx
          exact hacc _ _ rfl
        | none =>
          dsimp only
          by_cases hmem : pair.1 ∈ path
          · simp only [if_pos hmem]
            intro out2 exp2 hx
            exact absurd hx (by simp)
          · simp only [if_neg hmem]
            cases hrec : idsDls g t d pair.1 (path ++ [pair.1]) ea with
            | mk rres re =>
              match rres with
              | some rr =>
                intro out2 exp2 hx
                obtain ⟨rfl, rfl⟩ : node :: rr = out2 ∧ re = exp2 := by
                  simpa using hx
                obtain ⟨h1, h2, h3⟩ := ih pair.1 (path ++ [pair.1]) ea rr re hrec
                refine ⟨rfl, ?_, ?_⟩
                · cases rr with
                  | nil => cases h1
                  | cons y rr' =>
                    rw [List.getLast?_cons_cons]
                    exact h2
                · cases rr with
                  | nil => cases h1
                  | cons y rr' =>
                    obtain rfl : y = pair.1 := by simpa using h1
                    simp only [isChain, Bool.and_eq_true]
                    exact ⟨mem_dictContains _ _ hpair, h3⟩
              | none =>
                intro out2 exp2 hx
                exact absurd hx (by simp)

theorem idsOuter_path (g : Graph) (s t : Node) :
    ∀ (fuel depth exp : ℕ) (l : List Node) (exp' : ℕ),
      idsOuter g s t fuel depth exp = some (some l, exp') →
      l.head? = some s ∧ l.getLast? = some t ∧ isChain g l = true := by
  intro fuel
  induction fuel with
  | zero => intro depth exp l exp' h; cases h
  | succ n ih =>
    intro depth exp l exp' h
    simp only [idsOuter] at h
    cases hd : idsDls g t depth s [s] exp with
    | mk result exp2 =>
      simp only [hd] at h
      by_cases hbrk : (result.isSome || decide (50 < depth)) = true
      · rw [if_pos hbrk] at h
        obtain ⟨rfl, rfl⟩ : result = some l ∧ exp2 = exp' := by simpa using h
        exact idsDls_path g t depth s [s] exp l exp2 hd
      · rw [if_neg hbrk] at h
        exact ih (depth + 1) exp2 l exp' h

theorem ids_search_path (g : Graph) (s t : Node) (fuel : ℕ) (r : SearchResult)
    (h : ids_search g s t fuel = some (.ok r)) (hne : r.path ≠ []) :
    pathOkB g s t r.path = true := by
  unfold ids_search at h
  cases ho : idsOuter g s t fuel 0 0 with
  | none => rw [ho] at h; cases h
  | some q =>
    obtain ⟨result, exp⟩ := q
    simp only [ho] at h
    cases result with
    | none => simp at h
    | some l =>
      obtain ⟨h1, h2, h3⟩ := idsOuter_path g s t fuel 0 0 l exp ho
      cases hcost : pathCostQ g l with
      | error e => simp only [hcost] at h; cases h
      | ok cost =>
        simp only [hcost] at h
        by_cases hl : !l.isEmpty
        · simp only [if_pos hl, mkSearchResult_stdKw] at h
          obtain rfl : _ = r := by simpa using h
          simp [pathOkB, h1, h2, h3]
        · simp only [if_neg hl, mkSearchResult_stdKw] at h
          obtain rfl : _ = r := by simpa using h
          simp at hne

/-! ## Error-shape lemmas (for the frontier-underflow claim) -/

theorem get_distance_err (g : Graph) (a b : Node) (e : PyErr)
    (h : g.get_distance a b = .error e) : ∃ k, e = .keyError k := by
  unfold Graph.get_distance at h
  cases hd : dictGet ((dictGet g.adjacency a).getD []) b with
  | some d => rw [hd] at h; cases h
  | none =>
    rw [hd] at h
    obtain rfl : PyErr.keyError b = e := by simpa using h
    exact ⟨b, rfl⟩

theorem pathCostQ_err (g : Graph) (l : List Node) (e : PyErr)
    (h : pathCostQ g l = .error e) : ∃ k, e = .keyError k := by
  unfold pathCostQ at h
  have hfold := foldl_pres
    (P := fun acc : Except PyErr ℚ =>
      ∀ e, acc = .error e → ∃ k, e = .keyError k)
    (fun acc ab =>
      match acc with
      | .error e => .error e
      | .ok c =>
        match g.get_distance ab.1 ab.2 with
        | .error e => .error e
        | .ok d => .ok (c + d))
    (l.zip (l.drop 1)) ?_ (.ok 0) (fun e he => by cases he)
  · exact hfold e h
  · intro acc ab hab hacc
    cases acc with
    | error e0 =>
      intro e1 he1
      obtain rfl : e0 = e1 := by simpa using he1
      exact hacc e0 rfl
    | ok c =>
      dsimp only
      cases hd : g.get_distance ab.1 ab.2 with
      | error e0 =>
        intro e1 he1
        obtain rfl : e0 = e1 := by simpa using he1
        exact get_distance_err g ab.1 ab.2 e0 hd
      | ok d => intro e1 he1; cases he1

theorem greedyExpand_err (hav : Hav) (g : Graph) (t u : Node)
    (st : GreedyState) (e : PyErr) (h : greedyExpand hav g t u st = .error e) :
    ∃ k, e = .keyError k := by
  unfold greedyExpand at h
  have hfold := foldl_pres
    (P := fun acc : Except PyErr GreedyState =>
      ∀ e, acc = .error e → ∃ k, e = .keyError k)
    (fun acc pair =>
      match acc with
      | .error e => .error e
      | .ok st =>
        if pair.1 ∈ st.visited then .ok st
        else
          match nodeHeuristic hav g pair.1 t with
          | .error e => .error e
          | .ok hv =>
            .ok { st with
                    visited := st.visited ++ [pair.1],
                    came_from := dictSet st.came_from pair.1 u,
                    frontier := st.frontier.push pair.1 hv })
    (g.get_neighbors u) ?_ (.ok st) (fun e he => by cases he)
  · exact hfold e h
  · intro acc pair hpair hacc
    cases acc with
    | error e0 =>
      intro e1 he1
      obtain rfl : e0 = e1 := by simpa using he1
      exact hacc e0 rfl
    | ok stp =>
      dsimp only
      by_cases hv : pair.1 ∈ stp.visited
      · simp only [if_pos hv]
        intro e1 he1
        cases he1
      · simp only [if_neg hv]
        cases hh : nodeHeuristic hav g pair.1 t with
        | error e0 =>
          intro e1 he1
          obtain rfl : e0 = e1 := by simpa using he1
          exact nodeHeuristic_error hav g pair.1 t e0 hh
        | ok hvq => intro e1 he1; cases he1

theorem astarRelax_err (hav : Hav) (gr : Graph) (t u : Node)
    (st : AStarState) (e : PyErr) (h : astarRelax hav gr t u st = .error e) :
    ∃ k, e = .keyError k := by
  unfold astarRelax at h
  have hfold := foldl_pres
    (P := fun acc : Except PyErr AStarState =>
      ∀ e, acc = .error e → ∃ k, e = .keyError k)
    (fun acc pair =>
      match acc with
      | .error e => .error e
      | .ok st =>
        match dictGet st.gmap u with
        | none => .error (.keyError u)
        | some gcur =>
          let tentative := gcur + pair.2
          if Cost.lt (.fin tentative)
              ((dictGet st.gmap pair.1).elim Cost.inf Cost.fin) then
            match nodeHeuristic hav gr pair.1 t with
            | .error e => .error e
            | .ok hv =>
              .ok { st with
                      gmap := dictSet st.gmap pair.1 tentative,
                      came_from := dictSet st.came_from pair.1 u,
                      frontier := st.frontier.push pair.1 (tentative + hv) }
          else .ok st)
    (gr.get_neighbors u) ?_ (.ok st) (fun e he => by cases he)
  · exact hfold e h
  · intro acc pair hpair hacc
    cases acc with
    | error e0 =>
      intro e1 he1
      obtain rfl : e0 = e1 := by simpa using he1
      exact hacc e0 rfl
    | ok stp =>
      dsimp only
      cases hg : dictGet stp.gmap u with
      | none =>
        intro e1 he1
        obtain rfl : PyErr.keyError u = e1 := by simpa using he1
        exact ⟨u, rfl⟩
      | some gcur =>
        by_cases hlt : Cost.lt (.fin (gcur + pair.2))
            ((dictGet stp.gmap pair.1).elim Cost.inf Cost.fin)
        · simp only [if_pos hlt]
          cases hh : nodeHeuristic hav gr pair.1 t with
          | error e0 =>
            intro e1 he1
            obtain rfl : e0 = e1 := by simpa using he1
            exact nodeHeuristic_error hav gr pair.1 t e0 hh
          | ok hvq => intro e1 he1; cases he1
        · simp only [if_neg hlt]
          intro e1 he1
          cases he1

theorem greedyLoop_not_idx (hav : Hav) (g : Graph) (s t : Node) :
    ∀ (fuel : ℕ) (st : GreedyState) (res : Except PyErr SearchResult),
      greedyLoop hav g s t fuel st = some res → isPopEmptyErr res = false := by
  intro fuel
  induction fuel with
  | zero => intro st res h; cases h
  | succ n ih =>
    intro st res h
    simp only [greedyLoop] at h
    by_cases hemp : st.frontier.is_empty
    · rw [if_pos hemp, mkSearchResult_stdKw] at h
      obtain rfl : _ = res := by simpa using h
      rfl
    · rw [if_neg hemp] at h
      cases hpop : st.frontier.pop with
      | error e =>
        obtain ⟨x, q', hq⟩ := pq_pop_of_not_empty _ (by
          cases he : st.frontier.is_empty
          · rfl
          · exact absurd he hemp)
        rw [hq] at hpop
        cases hpop
      | ok p =>
        obtain ⟨current, fr'⟩ := p
        simp only [hpop] at h
        by_cases hcur : current = t
        · rw [if_pos hcur] at h
          cases hrec : reconstruct_path st.came_from (n + 1) current with
          | none => simp only [hrec] at h; cases h
          | some path =>
            simp only [hrec] at h
            cases hcost : pathCostQ g path with
            | error e =>
              simp only [hcost] at h
              obtain rfl : _ = res := by simpa using h
              obtain ⟨k, rfl⟩ := pathCostQ_err g path e hcost
              rfl
            | ok cost =>
              simp only [hcost, mkSearchResult_stdKw] at h
              obtain rfl : _ = res := by simpa using h
              rfl
        · rw [if_neg hcur] at h
          cases hexp : greedyExpand hav g t current
              { st with frontier := fr',
                        nodes_expanded := st.nodes_expanded + 1 } with
          | error e =>
            simp only [hexp] at h
            obtain rfl : _ = res := by simpa using h
            obtain ⟨k, rfl⟩ := greedyExpand_err hav g t current _ e hexp
            rfl
          | ok st2 =>
            simp only [hexp] at h
            exact ih st2 res h

theorem astarLoop_not_idx (hav : Hav) (gr : Graph) (s t : Node) :
    ∀ (fuel : ℕ) (st : AStarState) (res : Except PyErr SearchResult),
      astarLoop hav gr s t fuel st = some res → isPopEmptyErr res = false := by
  intro fuel
  induction fuel with
  | zero => intro st res h; cases h
  | succ n ih =>
    intro st res h
    simp only [astarLoop] at h
    by_cases hemp : st.frontier.is_empty
    · rw [if_pos hemp, mkSearchResult_stdKw] at h
      obtain rfl : _ = res := by simpa using h
      rfl
    · rw [if_neg hemp] at h
      cases hpop : st.frontier.pop with
      | error e =>
        obtain ⟨x, q', hq⟩ := pq_pop_of_not_empty _ (by
          cases he : st.frontier.is_empty
          · rfl
          · exact absurd he hemp)
        rw [hq] at hpop
        cases hpop
      | ok p =>
        obtain ⟨current, fr'⟩ := p
        simp only [hpop] at h
        by_cases hcur : current = t
        · rw [if_pos hcur] at h
          cases hrec : reconstruct_path st.came_from (n + 1) current with
          | none => simp only [hrec] at h; cases h
          | some path =>
            simp only [hrec] at h
            cases hg : dictGet st.gmap current with
            | none =>
              simp only [hg] at h
              obtain rfl : _ = res := by simpa using h
              rfl
            | some gc =>
              simp only [hg, mkSearchResult_stdKw] at h
              obtain rfl : _ = res := by simpa using h
              rfl
        · rw [if_neg hcur] at h
          cases hexp : astarRelax hav gr t current
              { st with frontier := fr',
                        nodes_expanded := st.nodes_expanded + 1 } with
          | error e =>
            simp only [hexp] at h
            obtain rfl : _ = res := by simpa using h
            obtain ⟨k, rfl⟩ := astarRelax_err hav gr t current _ e hexp
            rfl
          | ok st2 =>
            simp only [hexp] at h
            exact ih st2 res h

/-! ## Helper lemmas for the comparison aggregator -/

theorem filter_idem (p : SearchResult → Bool) (l : List SearchResult) :
    (l.filter p).filter p = l.filter p := by
  induction l with
  | nil => rfl
  | cons x xs ih =>
    by_cases hx : p x
    · simp [List.filter_cons, hx, ih]
    · simp [List.filter_cons, hx, ih]

theorem computeMetrics_filter (results : List SearchResult) :
    computeMetrics (results.filter (fun r => !r.path.isEmpty)) =
      computeMetrics results := by
  conv_lhs => rw [computeMetrics.eq_def, filter_idem]
  rw [computeMetrics.eq_def]

/-! ## Helper lemmas for the two-city graph `gAB` -/

theorem gAB_distance (a b : Node)
    (h : dictContains (gAB.get_neighbors a) b = true) :
    gAB.get_distance a b = .ok 1 := by
  have hadj : gAB.adjacency = [("A", [("B", 1)]), ("B", [("A", 1)])] := rfl
  unfold Graph.get_distance
  unfold Graph.get_neighbors at h
  rw [hadj] at h ⊢
  by_cases hA : "A" = a
  · subst hA
    simp only [dictGet] at h ⊢
    norm_num at h ⊢
    by_cases hB : "B" = b
    · subst hB
      simp [dictGet]
    · simp [dictContains, dictGet, hB] at h
  · by_cases hB : "B" = a
    · subst hB
      simp only [dictGet] at h ⊢
      norm_num at h ⊢
      by_cases hA2 : "A" = b
      · subst hA2
        simp [dictGet]
      · simp [dictContains, dictGet, hA2] at h
    · simp [dictContains, dictGet, hA, hB] at h

theorem gAB_cost_fold (l : List Node) :
    ∀ (x : Node) (c : ℚ), isChain gAB (x :: l) = true →
      ((x :: l).zip l).foldl
        (fun (acc : Except PyErr ℚ) (ab : Node × Node) =>
          match acc with
          | .error e => Except.error e
          | .ok c =>
            match gAB.get_distance ab.1 ab.2 with
            | .error e => Except.error e
            | .ok d => Except.ok (c + d))
        (Except.ok c) = Except.ok (c + l.length) := by
  induction l with
  | nil => intro x c _; simp
  | cons y r ih =>
    intro x c hch
    simp only [isChain, Bool.and_eq_true] at hch
    rw [List.zip_cons_cons, List.foldl_cons]
    rw [gAB_distance x y hch.1]
    rw [ih y (c + 1) hch.2]
    congr 1
    simp only [List.length_cons]
    push_cast
    ring

theorem gAB_pathCost (l : List Node) (x : Node)
    (hch : isChain gAB (x :: l) = true) :
    pathCostQ gAB (x :: l) = .ok (l.length : ℚ) := by
  unfold pathCostQ
  simpa using gAB_cost_fold l x 0 hch


/-! ## The claims -/

/-- Claim C1 (code_bug evidence): on the two-city graph with the single edge
`A—B` of weight 1 and the reachable pair `(A, B)`, `UCS.search` raises the
constructor-arity `TypeError` instead of returning a `SearchResult`, while
`A*.search` (for every heuristic) returns cost 1 — and 1 is the minimum total
edge weight over all `A`-to-`B` paths of the graph (every path has at least
one edge, and every stored edge weighs 1). -/
theorem c1_ucs_astar_cross_validation :
    (ucs_search gAB "A" "B" 6 =
      some (.error (.typeErrorMissingArgs ["start", "goal"]))) ∧
    (∀ hav : Hav, astar_search hav gAB "A" "B" 6 =
      some (.ok ⟨"A*", "A", "B", ["A", "B"], .fin 1, 1, 0, true⟩)) ∧
    (∀ (l : List Node) (q : ℚ), pathOkB gAB "A" "B" l = true →
      pathCostQ gAB l = .ok q → 1 ≤ q) ∧
    pathOkB gAB "A" "B" ["A", "B"] = true ∧
    pathCostQ gAB ["A", "B"] = .ok 1 := by
  refine ⟨rfl, fun hav => by with_unfolding_all rfl, ?_, by decide,
    by with_unfolding_all rfl⟩
  intro l q hok hcost
  simp only [pathOkB, Bool.and_eq_true, beq_iff_eq] at hok
  obtain ⟨⟨hhead, hlast⟩, hchain⟩ := hok
  cases l with
  | nil => cases hhead
  | cons x r =>
    obtain rfl : x = "A" := by simpa using hhead
    cases r with
    | nil => simp at hlast
    | cons y r' =>
      rw [gAB_pathCost (y :: r') "A" hchain] at hcost
      obtain rfl : ((y :: r').length : ℚ) = q := by simpa using hcost
      have h1 : 1 ≤ (y :: r').length := by simp
      exact_mod_cast h1

/-- Claim C2 (code_bug evidence): on the graph with isolated cities `A` and
`D` (goal unreachable), BFS, Greedy, A* and IDA* return the specified failure
result (`path = []`, `cost = inf`, `is_optimal = false`), but UCS and DFS
raise the constructor-arity `TypeError`, and IDS raises
`TypeError: 'NoneType' object is not subscriptable` on `result[1:]`. -/
theorem c2_unreachable_results :
    (bfs_search gAD "A" "D" 6 =
      some (.ok ⟨"BFS", "A", "D", [], .inf, 1, 0, false⟩)) ∧
    (greedy_search hav0 gAD "A" "D" 6 =
      some (.ok ⟨"Greedy", "A", "D", [], .inf, 1, 0, false⟩)) ∧
    (astar_search hav0 gAD "A" "D" 6 =
      some (.ok ⟨"A*", "A", "D", [], .inf, 1, 0, false⟩)) ∧
    (idastar_search hav0 gAD "A" "D" 6 =
      some (.ok ⟨"IDA*", "A", "D", [], .inf, 1, 0, false⟩)) ∧
    (ucs_search gAD "A" "D" 6 =
      some (.error (.typeErrorMissingArgs ["start", "goal"]))) ∧
    (dfs_search gAD "A" "D" 6 =
      some (.error (.typeErrorMissingArgs ["runtime", "is_optimal"]))) ∧
    (ids_search gAD "A" "D" 60 =
      some (.error .typeErrorNoneNotSubscriptable)) :=
  ⟨rfl, rfl, rfl, by with_unfolding_all rfl, rfl, rfl, rfl⟩

/-- Claim C3: every terminating call of `UCS.search` raises the
constructor-arity `TypeError` (its `SearchResult(...)` calls omit the
required `start` and `goal` fields) and every terminating call of
`DFS.search` raises the constructor-arity `TypeError` (six positional
arguments for the eight-field dataclass), so neither ever returns a
`SearchResult` value. -/
theorem c3_constructor_arity :
    (∀ (g : Graph) (s t : Node) (fuel : ℕ) (res : Except PyErr SearchResult),
        ucs_search g s t fuel = some res →
        res = .error (.typeErrorMissingArgs ["start", "goal"])) ∧
    (∀ (g : Graph) (s t : Node) (fuel : ℕ) (res : Except PyErr SearchResult),
        dfs_search g s t fuel = some res →
        res = .error (.typeErrorMissingArgs ["runtime", "is_optimal"])) :=
  ⟨ucs_search_err, dfs_search_err⟩

theorem c3_constructor_arity_witness :
    (∃ res, ucs_search gAB "A" "A" 5 = some res ∧
      res = .error (.typeErrorMissingArgs ["start", "goal"])) ∧
    (∃ res, dfs_search gAB "A" "A" 5 = some res ∧
      res = .error (.typeErrorMissingArgs ["runtime", "is_optimal"])) :=
  ⟨⟨_, rfl, c3_constructor_arity.1 gAB "A" "A" 5 _ rfl⟩,
   ⟨_, rfl, c3_constructor_arity.2 gAB "A" "A" 5 _ rfl⟩⟩

/-- Claim C4 (code_bug evidence): `DFS.search` never returns a
`SearchResult` at all — on a reachable pair (where its success branch passes
`True` in the `is_optimal` position) and on an unreachable pair alike, the
six-positional constructor call raises the arity `TypeError`. -/
theorem c4_dfs_is_optimal_unreturnable :
    (dfs_search gAB "A" "B" 6 =
      some (.error (.typeErrorMissingArgs ["runtime", "is_optimal"]))) ∧
    (dfs_search gAD "A" "D" 6 =
      some (.error (.typeErrorMissingArgs ["runtime", "is_optimal"]))) :=
  ⟨by with_unfolding_all rfl, rfl⟩

/-- Claim C5: for every graph and heuristic, whenever BFS, Greedy, A*, IDA*
or IDS returns a `SearchResult` with a non-empty path, that path begins with
`start`, ends with `goal`, and every consecutive pair of its nodes has a
stored edge in the graph's adjacency mapping.  (UCS and DFS never return a
`SearchResult` at all — see C3 — so they return no paths to check.) -/
theorem c5_successful_paths_valid :
    ∀ (hav : Hav) (g : Graph) (s t : Node) (fuel : ℕ) (r : SearchResult),
      (bfs_search g s t fuel = some (.ok r) → r.path ≠ [] →
        pathOkB g s t r.path = true) ∧
      (greedy_search hav g s t fuel = some (.ok r) → r.path ≠ [] →
        pathOkB g s t r.path = true) ∧
      (astar_search hav g s t fuel = some (.ok r) → r.path ≠ [] →
        pathOkB g s t r.path = true) ∧
      (idastar_search hav g s t fuel = some (.ok r) → r.path ≠ [] →
        pathOkB g s t r.path = true) ∧
      (ids_search g s t fuel = some (.ok r) → r.path ≠ [] →
        pathOkB g s t r.path = true) := by
  intro hav g s t fuel r
  refine ⟨fun h hne => bfs_search_path g s t fuel r h hne, ?_, ?_,
    fun h hne => idastar_search_path hav g s t fuel r h hne,
    fun h hne => ids_search_path g s t fuel r h hne⟩
  · intro h hne
    unfold greedy_search at h
    cases hh : nodeHeuristic hav g s t with
    | error e => simp only [hh] at h; cases h
    | ok h0 =>
      simp only [hh] at h
      refine greedyLoop_path hav g s t fuel _ r h ?_ ?_ ?_ hne
      · intro v u hv; cases hv
      · intro v u hv; cases hv
      · intro x hx
        left
        simpa [pqItems, PriorityQueue.pqNew, PriorityQueue.push, heappush]
          using hx
  · intro h hne
    unfold astar_search at h
    refine astarLoop_path hav g s t fuel _ r h ?_ ?_ ?_ hne
    · intro v u hv; cases hv
    · intro v u hv; cases hv
    · intro x hx
      left
      simpa [pqItems, PriorityQueue.pqNew, PriorityQueue.push, heappush]
        using hx

theorem c5_successful_paths_valid_witness :
    (bfs_search gAB "A" "B" 6 =
      some (.ok ⟨"BFS", "A", "B", ["A", "B"], .fin 1, 1, 0, false⟩)) ∧
    pathOkB gAB "A" "B" ["A", "B"] = true := by
  constructor
  · with_unfolding_all rfl
  · refine (c5_successful_paths_valid hav0 gAB "A" "B" 6
      ⟨"BFS", "A", "B", ["A", "B"], .fin 1, 1, 0, false⟩).1 ?_ ?_
    · with_unfolding_all rfl
    · simp

/-- Claim C6: after any non-empty sequence of pushes on a fresh
`PriorityQueue`, `pop` succeeds and removes one held entry `(p, i, x)` such
that `p` is the minimum priority currently held, `i` is the least insertion
id among the held entries of priority `p` (ids are the 0-based positions of
the push sequence, so ties go to the earliest push — FIFO), and the remaining
heap is the old heap minus that entry.  Pop is a pure function of the pushed
sequence, so the pop order is deterministic. -/
theorem c6_priority_queue_min_fifo (ps : List (Node × ℚ)) (hne : ps ≠ []) :
    ∃ (p : ℚ) (i : ℕ) (x : Node) (rest : List HeapEntry),
      (pushSeq ps).pop = .ok (x, ⟨rest, ps.length⟩) ∧
      (p, i, x) ∈ (pushSeq ps)._h ∧
      ps[i]? = some (x, p) ∧
      (∀ e ∈ (pushSeq ps)._h, p ≤ e.1) ∧
      (∀ e ∈ (pushSeq ps)._h, e.1 = p → i ≤ e.2.1) ∧
      (pushSeq ps)._h.Perm ((p, i, x) :: rest) := by
  have hheapne : (pushSeq ps)._h ≠ [] := by
    rw [pushSeq_heap]
    simp [hne]
  cases hp : heapPopMin (pushSeq ps)._h with
  | none => exact absurd ((heapPopMin_none_iff _).mp hp) hheapne
  | some q =>
    obtain ⟨⟨p, i, x⟩, rest⟩ := q
    obtain ⟨hperm, hmin⟩ := heapPopMin_spec _ _ _ hp
    refine ⟨p, i, x, rest, ?_, ?_, ?_, ?_, ?_, hperm⟩
    · unfold PriorityQueue.pop
      rw [hp, pushSeq_id]
    · exact hperm.mem_iff.mpr (List.mem_cons_self _ _)
    · have hmem : (p, i, x) ∈ (pushSeq ps)._h :=
        hperm.mem_iff.mpr (List.mem_cons_self _ _)
      rw [pushSeq_heap] at hmem
      obtain ⟨⟨j, a⟩, hja, heq⟩ := List.mem_map.mp hmem
      obtain ⟨rfl, rfl, rfl⟩ : a.2 = p ∧ j = i ∧ a.1 = x := by
        have h1 := congrArg Prod.fst heq
        have h2 := congrArg (fun z => z.2.1) heq
        have h3 := congrArg (fun z => z.2.2) heq
        exact ⟨h1, h2, h3⟩
      have : (j, a) ∈ ps.enum := hja
      rw [List.mk_mem_enum_iff_getElem?] at this
      simpa using this
    · intro e he
      have hle := hmin e he
      simp only [entryLe, Bool.or_eq_true, decide_eq_true_eq, beq_iff_eq,
        Bool.and_eq_true] at hle
      rcases hle with h | ⟨h, _⟩
      · exact le_of_lt h
      · exact le_of_eq h
    · intro e he hep
      have hle := hmin e he
      simp only [entryLe, Bool.or_eq_true, decide_eq_true_eq, beq_iff_eq,
        Bool.and_eq_true] at hle
      rcases hle with h | ⟨_, h⟩
      · rw [hep] at h
        exact absurd h (lt_irrefl p)
      · exact h

theorem c6_priority_queue_min_fifo_witness :
    ([("a", 2), ("b", 1), ("c", 1)] : List (Node × ℚ)) ≠ [] ∧
    (pushSeq [("a", 2), ("b", 1), ("c", 1)]).pop =
      .ok ("b", ⟨[(2, 0, "a"), (1, 2, "c")], 3⟩) ∧
    (∃ (p : ℚ) (i : ℕ) (x : Node) (rest : List HeapEntry),
      (pushSeq [("a", 2), ("b", 1), ("c", 1)]).pop = .ok (x, ⟨rest, 3⟩) ∧
      (p, i, x) ∈ (pushSeq [("a", 2), ("b", 1), ("c", 1)])._h ∧
      ([("a", 2), ("b", 1), ("c", 1)] : List (Node × ℚ))[i]? = some (x, p) ∧
      (∀ e ∈ (pushSeq [("a", 2), ("b", 1), ("c", 1)])._h, p ≤ e.1) ∧
      (∀ e ∈ (pushSeq [("a", 2), ("b", 1), ("c", 1)])._h, e.1 = p → i ≤ e.2.1) ∧
      (pushSeq [("a", 2), ("b", 1), ("c", 1)])._h.Perm ((p, i, x) :: rest)) := by
  refine ⟨by simp, by with_unfolding_all rfl, ?_⟩
  simpa using c6_priority_queue_min_fifo [("a", 2), ("b", 1), ("c", 1)] (by simp)

/-- Claim C7: `pop()` on a fresh (empty) frontier fails loudly with
`IndexError` rather than returning a value, and because every frontier-using
strategy's loop (`while not frontier.is_empty():`) checks emptiness before
popping, no terminating run of UCS, Greedy or A* ever surfaces that
frontier-underflow error. -/
theorem c7_pop_empty_guarded :
    (PriorityQueue.pqNew.pop = .error .indexError) ∧
    (∀ (g : Graph) (s t : Node) (fuel : ℕ) (res : Except PyErr SearchResult),
        ucs_search g s t fuel = some res → isPopEmptyErr res = false) ∧
    (∀ (hav : Hav) (g : Graph) (s t : Node) (fuel : ℕ)
        (res : Except PyErr SearchResult),
        greedy_search hav g s t fuel = some res → isPopEmptyErr res = false) ∧
    (∀ (hav : Hav) (g : Graph) (s t : Node) (fuel : ℕ)
        (res : Except PyErr SearchResult),
        astar_search hav g s t fuel = some res → isPopEmptyErr res = false) := by
  refine ⟨rfl, ?_, ?_, ?_⟩
  · intro g s t fuel res h
    rw [ucs_search_err g s t fuel res h]
    rfl
  · intro hav g s t fuel res h
    unfold greedy_search at h
    cases hh : nodeHeuristic hav g s t with
    | error e =>
      simp only [hh] at h
      obtain rfl : _ = res := by simpa using h
      obtain ⟨k, rfl⟩ := nodeHeuristic_error hav g s t e hh
      rfl
    | ok h0 =>
      simp only [hh] at h
      exact greedyLoop_not_idx hav g s t fuel _ res h
  · intro hav g s t fuel res h
    unfold astar_search at h
    exact astarLoop_not_idx hav g s t fuel _ res h

theorem c7_pop_empty_guarded_witness :
    (PriorityQueue.pqNew.pop = .error .indexError) ∧
    (∃ res, ucs_search gAB "A" "A" 5 = some res ∧ isPopEmptyErr res = false) ∧
    (∃ res, greedy_search hav0 gAB "A" "A" 5 = some res ∧
      isPopEmptyErr res = false) ∧
    (∃ res, astar_search hav0 gAB "A" "A" 5 = some res ∧
      isPopEmptyErr res = false) :=
  ⟨c7_pop_empty_guarded.1,
   ⟨_, rfl, c7_pop_empty_guarded.2.1 gAB "A" "A" 5 _ rfl⟩,
   ⟨_, by with_unfolding_all rfl,
    c7_pop_empty_guarded.2.2.1 hav0 gAB "A" "A" 5 _ (by with_unfolding_all rfl)⟩,
   ⟨_, by with_unfolding_all rfl,
    c7_pop_empty_guarded.2.2.2 hav0 gAB "A" "A" 5 _ (by with_unfolding_all rfl)⟩⟩

/-- Claim C8: the derived fields of a `ComparisonResult` are computed only
over the contained results whose path is non-empty (filtering the results to
the feasible ones leaves all three derived fields unchanged), and when no
result has a non-empty path all three keep their empty defaults. -/
theorem c8_comparison_metrics_feasible_only :
    ∀ (s t : Node) (results : List SearchResult),
      ((mkComparisonResult s t results).optimal_algorithms =
          (mkComparisonResult s t
            (results.filter (fun r => !r.path.isEmpty))).optimal_algorithms ∧
        (mkComparisonResult s t results).fastest_algorithm =
          (mkComparisonResult s t
            (results.filter (fun r => !r.path.isEmpty))).fastest_algorithm ∧
        (mkComparisonResult s t results).least_expanded_algorithm =
          (mkComparisonResult s t
            (results.filter (fun r => !r.path.isEmpty))).least_expanded_algorithm) ∧
      ((∀ r ∈ results, r.path = []) →
        (mkComparisonResult s t results).optimal_algorithms = [] ∧
        (mkComparisonResult s t results).fastest_algorithm = "" ∧
        (mkComparisonResult s t results).least_expanded_algorithm = "") := by
  intro s t results
  constructor
  · by_cases hres : results.isEmpty
    · obtain rfl : results = [] := by simpa [List.isEmpty_iff] using hres
      simp [mkComparisonResult]
    · by_cases hfil : (results.filter (fun r => !r.path.isEmpty)).isEmpty
      · have hfil' : results.filter (fun r => !r.path.isEmpty) = [] := by
          simpa [List.isEmpty_iff] using hfil
        have hcm : computeMetrics results = ([], "", "") := by
          rw [computeMetrics.eq_def, hfil']
        simp [mkComparisonResult, hres, hfil, hcm, hfil']
      · have hcm := computeMetrics_filter results
        simp [mkComparisonResult, hres, hfil, hcm]
  · intro hall
    have hfil' : results.filter (fun r => !r.path.isEmpty) = [] := by
      rw [List.filter_eq_nil_iff]
      intro r hr
      simp [hall r hr]
    have hcm : computeMetrics results = ([], "", "") := by
      rw [computeMetrics.eq_def, hfil']
    by_cases hres : results.isEmpty
    · simp [mkComparisonResult, hres]
    · simp [mkComparisonResult, hres, hcm]

theorem c8_comparison_metrics_feasible_only_witness :
    (∀ r ∈ [(⟨"BFS", "A", "D", [], .inf, 1, 0, false⟩ : SearchResult)],
      r.path = []) ∧
    ((mkComparisonResult "A" "D"
        [⟨"BFS", "A", "D", [], .inf, 1, 0, false⟩]).optimal_algorithms = [] ∧
      (mkComparisonResult "A" "D"
        [⟨"BFS", "A", "D", [], .inf, 1, 0, false⟩]).fastest_algorithm = "" ∧
      (mkComparisonResult "A" "D"
        [⟨"BFS", "A", "D", [], .inf, 1, 0, false⟩]).least_expanded_algorithm = "") := by
  refine ⟨by simp, ?_⟩
  exact (c8_comparison_metrics_feasible_only "A" "D"
    [⟨"BFS", "A", "D", [], .inf, 1, 0, false⟩]).2 (by simp)

/-- Claim C9: whenever `run_single_algorithm` returns a `SearchResult`, its
`is_optimal` field has been overwritten with `True` iff the normalized
algorithm name is `"UCS"` or `"A*"`, regardless of what the strategy itself
produced and regardless of whether a path was found. -/
theorem c9_run_single_overwrites_is_optimal :
    ∀ (hav : Hav) (g : Graph) (nm : String) (s t : Node) (fuel : ℕ)
      (r : SearchResult),
      run_single_algorithm hav g nm s t fuel = some (.ok r) →
      r.is_optimal = (normalize_algorithm_name nm == "UCS" ||
        normalize_algorithm_name nm == "A*") := by
  intro hav g nm s t fuel r h
  simp only [run_single_algorithm] at h
  by_cases hm : normalize_algorithm_name nm ∈ ALGO_REGISTRY_KEYS
  · rw [if_pos hm] at h
    cases hres : dispatch_search hav g (normalize_algorithm_name nm) s t fuel with
    | none => simp only [hres] at h; cases h
    | some x =>
      match x with
      | .error e =>
        simp only [hres] at h
        exact absurd h (by simp)
      | .ok r0 =>
        simp only [hres] at h
        obtain rfl : _ = r := by simpa using h
        rfl
  · rw [if_neg hm] at h
    exact absurd h (by simp)

theorem c9_run_single_overwrites_is_optimal_witness :
    (∃ r : SearchResult,
      run_single_algorithm hav0 gAB "BFS (Breadth-First Search)" "A" "B" 6 =
        some (.ok r) ∧
      r.is_optimal = (normalize_algorithm_name "BFS (Breadth-First Search)" == "UCS" ||
        normalize_algorithm_name "BFS (Breadth-First Search)" == "A*")) ∧
    (∃ r : SearchResult,
      run_single_algorithm hav0 gAB "A* Search" "A" "B" 6 = some (.ok r) ∧
      r.is_optimal = (normalize_algorithm_name "A* Search" == "UCS" ||
        normalize_algorithm_name "A* Search" == "A*")) :=
  ⟨⟨_, by with_unfolding_all rfl,
    c9_run_single_overwrites_is_optimal hav0 gAB "BFS (Breadth-First Search)"
      "A" "B" 6 _ (by with_unfolding_all rfl)⟩,
   ⟨_, by with_unfolding_all rfl,
    c9_run_single_overwrites_is_optimal hav0 gAB "A* Search"
      "A" "B" 6 _ (by with_unfolding_all rfl)⟩⟩

/-- Claim C10: for every graph, node `s` present in the graph's city table
(Greedy needs the coordinates), and positive fuel, calling BFS, Greedy or A*
with `start = goal = s` returns `path = [s]`, `cost = 0.0` and
`nodes_expanded = 0`: the goal test fires on the first dequeue/pop, before
any neighbor is examined (the result does not depend on the adjacency at all,
since the statement holds for every graph containing `s`). -/
theorem c10_start_equals_goal :
    ∀ (hav : Hav) (g : Graph) (s : Node) (fuel : ℕ),
      1 ≤ fuel → dictContains g.cities s = true →
      (bfs_search g s s fuel =
        some (.ok ⟨"BFS", s, s, [s], .fin 0, 0, 0, false⟩)) ∧
      (greedy_search hav g s s fuel =
        some (.ok ⟨"Greedy", s, s, [s], .fin 0, 0, 0, false⟩)) ∧
      (astar_search hav g s s fuel =
        some (.ok ⟨"A*", s, s, [s], .fin 0, 0, 0, true⟩)) := by
  intro hav g s fuel hfuel hs
  obtain ⟨n, rfl⟩ : ∃ n, fuel = n + 1 := ⟨fuel - 1, by omega⟩
  refine ⟨?_, ?_, ?_⟩
  · have hloop : bfsLoop g s (n + 1) ⟨[s], [], [s], 0⟩ =
        some ⟨[], [], [s], 0⟩ := by
      simp [bfsLoop]
    unfold bfs_search
    rw [hloop]
    have hpc : pathCostQ g [s] = .ok 0 := rfl
    simp [dictContains, dictGet, hpc, mkSearchResult_stdKw]
  · obtain ⟨c, hc⟩ := dictContains_isSome g.cities s hs
    have hcoord : g.get_coordinates s = .ok (c.latitude, c.longitude) := by
      unfold Graph.get_coordinates
      rw [hc]
    have hh : nodeHeuristic hav g s s =
        .ok (hav c.latitude c.longitude c.latitude c.longitude) := by
      unfold nodeHeuristic
      rw [hcoord]
    unfold greedy_search
    rw [hh]
    simp only [greedyLoop]
    have hpop : (⟨[(hav c.latitude c.longitude c.latitude c.longitude, 0, s)],
        1⟩ : PriorityQueue).pop = .ok (s, ⟨[], 1⟩) := rfl
    have hrec : reconstruct_path ([] : PyDict Node Node) (n + 1) s = some [s] := by
      simp [reconstruct_path, reconstructGo, dictGet]
    have hpc : pathCostQ g [s] = .ok 0 := rfl
    simp [PriorityQueue.is_empty, PriorityQueue.pqNew, PriorityQueue.push,
      heappush, hpop, hrec, hpc, mkSearchResult_stdKw]
  · unfold astar_search
    simp only [astarLoop]
    have hpop : (⟨[(0, 0, s)], 1⟩ : PriorityQueue).pop = .ok (s, ⟨[], 1⟩) := rfl
    have hrec : reconstruct_path ([] : PyDict Node Node) (n + 1) s = some [s] := by
      simp [reconstruct_path, reconstructGo, dictGet]
    simp [PriorityQueue.is_empty, PriorityQueue.pqNew, PriorityQueue.push,
      heappush, hpop, hrec, dictGet, mkSearchResult_stdKw]

theorem c10_start_equals_goal_witness :
    (1 ≤ 1 ∧ dictContains gAB.cities "A" = true) ∧
    (bfs_search gAB "A" "A" 1 =
      some (.ok ⟨"BFS", "A", "A", ["A"], .fin 0, 0, 0, false⟩)) ∧
    (greedy_search hav0 gAB "A" "A" 1 =
      some (.ok ⟨"Greedy", "A", "A", ["A"], .fin 0, 0, 0, false⟩)) ∧
    (astar_search hav0 gAB "A" "A" 1 =
      some (.ok ⟨"A*", "A", "A", ["A"], .fin 0, 0, 0, true⟩)) :=
  ⟨⟨le_refl 1, rfl⟩,
   c10_start_equals_goal hav0 gAB "A" 1 (le_refl 1) rfl⟩
